import Mathlib

/-!
# Verification of the `anystore` storage-abstraction layer

A shallow embedding of the core of the `anystore` repository:

* `anystore/serialize.py` — the serialization pipeline (`to_store` / `from_store`)
* `anystore/store/base.py` — the backend-agnostic store contract
* `anystore/store/memory.py`, `sql.py`, `redis.py`, `zip.py` — backend drivers
* `anystore/mirror.py` — the store-to-store mirroring pass
* `anystore/worker.py` — the bounded concurrent worker pool

Python byte strings are modelled as lists of naturals (`Bytes`), time as a
natural-number clock passed explicitly to each operation, and stateful store
objects as explicit state records threaded through the operations.  External
collaborator libraries (`orjson`, `cloudpickle`, the Redis server) are modelled
at their interface boundary, as described in the doc comments below.
-/

namespace Anystore

/-- A Python byte string: a list of byte values. -/
abbrev Bytes := List Nat

/-- Scalar JSON-representable Python values: `str`, `int`, `bool`, `None`.
(Values are modelled over exact integers; floats are outside the model.) -/
inductive Scalar
  | str (s : String)
  | int (n : Int)
  | bool (b : Bool)
  | null
deriving DecidableEq, Repr

/-- The Python values flowing through the serialization pipeline that the
claims quantify over: byte strings, scalars (text / number / bool / None)
and structured maps (string-keyed dicts of scalars). -/
inductive Value
  | bytes (bs : Bytes)
  | scalar (v : Scalar)
  | map (m : List (String × Scalar))
deriving DecidableEq, Repr

/-- `Mode` from `anystore/serialize.py`: `Literal["auto", "raw", "pickle", "json"]`. -/
inductive Mode
  | auto | raw | pickle | json
deriving DecidableEq, Repr

/-- The error kinds surfaced by the modelled operations.  `doesNotExist` and
`readOnly` are `anystore.exceptions.DoesNotExist` / `ReadOnlyError`;
`invalidValue` is the `ValueError("Value is not bytes")` of raw-mode
serialization (the spec's `InvalidValueError`); `encodeError` / `decodeError`
are the `orjson` / `cloudpickle` codec failures (the spec's
`SerializationError`); `typeError` is a Python `TypeError` from a malformed
dynamic call; `notImplemented` is `NotImplementedError`. -/
inductive StoreError
  | doesNotExist
  | readOnly
  | invalidValue
  | encodeError
  | decodeError
  | typeError
  | notImplemented
deriving DecidableEq, Repr

/-! ## Byte-level text encoding

Python `str.encode()` / `bytes.decode()` are modelled for the ASCII plane:
each character is one byte equal to its code point.  `decodeUtf8?` succeeds
exactly on byte strings that stay below `0x80` (on that range UTF-8 and our
one-byte-per-character model coincide). -/

/-- `str.encode()`: one byte per character (exact for ASCII text). -/
def strBytes (s : String) : Bytes := s.data.map Char.toNat

/-- Rebuild a string from bytes (each byte one character). -/
def strOfBytes (bs : Bytes) : String := ⟨bs.map Char.ofNat⟩

/-- `bytes.decode()`, modelled for the ASCII plane: succeeds iff every byte
is below `0x80`, otherwise raises `UnicodeDecodeError` (`none`). -/
def decodeUtf8? (bs : Bytes) : Option String :=
  if bs.all (· < 128) then some (strOfBytes bs) else none

/-! ## JSON codec (`orjson`)

`orjson` is an external collaborator; the spec describes it as the
"structured-data byte representation".  It is modelled byte-exactly on the
fragment the claims exercise: `null`, `true`, `false`, decimal integers,
strings without escape characters, and compact one-level objects
(`{"k":v,...}`, as `orjson.dumps` emits them). -/

/-- Decimal digits of `n` (big-endian), with explicit fuel so the definition
is structurally recursive and kernel-computable.  Little-endian helper. -/
def natDigitsAux : Nat → Nat → List Nat
  | 0, _ => []
  | _ + 1, 0 => []
  | fuel + 1, n + 1 => ((n + 1) % 10) :: natDigitsAux fuel ((n + 1) / 10)

/-- ASCII decimal representation of a natural number. -/
def printNat (n : Nat) : Bytes :=
  if n = 0 then [48] else ((natDigitsAux n n).reverse.map (· + 48))

/-- ASCII decimal representation of an integer (leading `-` when negative). -/
def printInt (i : Int) : Bytes :=
  if i < 0 then 45 :: printNat i.natAbs else printNat i.natAbs

/-- JSON string literal: `"` body `"` (no escaping; the well-formedness
predicate below keeps quote and backslash out of encoded strings). -/
def jsonStr (s : String) : Bytes := 34 :: (strBytes s ++ [34])

/-- JSON encoding of a scalar value. -/
def jsonScalar : Scalar → Bytes
  | .str s => jsonStr s
  | .int n => printInt n
  | .bool true => [116, 114, 117, 101]
  | .bool false => [102, 97, 108, 115, 101]
  | .null => [110, 117, 108, 108]

/-- One `"key":value` member of a JSON object. -/
def jsonPair (kv : String × Scalar) : Bytes := jsonStr kv.1 ++ 58 :: jsonScalar kv.2

/-- Comma-joined members of a JSON object. -/
def jsonPairsBody : List (String × Scalar) → Bytes
  | [] => []
  | [kv] => jsonPair kv
  | kv :: rest => jsonPair kv ++ 44 :: jsonPairsBody rest

/-- Compact JSON object, as `orjson.dumps` emits it. -/
def jsonMap (m : List (String × Scalar)) : Bytes := 123 :: (jsonPairsBody m ++ [125])

/-- `orjson.dumps`: total on scalars and maps, fails (`TypeError`) on `bytes`
input, which `orjson` cannot represent. -/
def jsonEncode : Value → Option Bytes
  | .bytes _ => none
  | .scalar v => some (jsonScalar v)
  | .map m => some (jsonMap m)

/-- Is this byte an ASCII decimal digit? -/
def isDigit (b : Nat) : Bool := 48 ≤ b && b ≤ 57

/-- Split off the longest digit run. -/
def takeWhileDigits : Bytes → (List Nat × Bytes)
  | [] => ([], [])
  | b :: r =>
    if isDigit b then
      let p := takeWhileDigits r
      (b :: p.1, p.2)
    else ([], b :: r)

/-- Numeric value of a big-endian ASCII digit run. -/
def digitsVal (ds : List Nat) : Nat := ds.foldl (fun a d => a * 10 + (d - 48)) 0

/-- Parse a nonempty digit run from the front of the input. -/
def parseDigitsPre (bs : Bytes) : Option (Nat × Bytes) :=
  match takeWhileDigits bs with
  | ([], _) => none
  | (ds, rest) => some (digitsVal ds, rest)

/-- Scan a JSON string body up to the closing quote. -/
def takeUntilQuote : Bytes → Option (List Nat × Bytes)
  | [] => none
  | b :: r =>
    if b = 34 then some ([], r)
    else match takeUntilQuote r with
      | some (acc, rest) => some (b :: acc, rest)
      | none => none

/-- Parse one JSON scalar from the front of the input, returning the rest. -/
def parseScalarPre (bs : Bytes) : Option (Scalar × Bytes) :=
  if [110, 117, 108, 108].isPrefixOf bs then some (.null, bs.drop 4)
  else if [116, 114, 117, 101].isPrefixOf bs then some (.bool true, bs.drop 4)
  else if [102, 97, 108, 115, 101].isPrefixOf bs then some (.bool false, bs.drop 5)
  else match bs with
    | [] => none
    | b :: r =>
      if b = 34 then
        match takeUntilQuote r with
        | some (cs, rest) => some (.str (strOfBytes cs), rest)
        | none => none
      else if b = 45 then
        match parseDigitsPre r with
        | some (n, rest) => some (.int (-(n : Int)), rest)
        | none => none
      else
        match parseDigitsPre (b :: r) with
        | some (n, rest) => some (.int (n : Int), rest)
        | none => none

/-- Parse the members of a nonempty JSON object (after the opening brace),
with fuel bounding the number of members. -/
def parsePairs : Nat → Bytes → Option (List (String × Scalar))
  | 0, _ => none
  | fuel + 1, bs =>
    match bs with
    | [] => none
    | b :: r =>
      if b = 34 then
        match takeUntilQuote r with
        | some (ks, c :: r2) =>
          if c = 58 then
            match parseScalarPre r2 with
            | some (v, d :: r3) =>
              if d = 44 then
                match parsePairs fuel r3 with
                | some rest => some ((strOfBytes ks, v) :: rest)
                | none => none
              else if d = 125 ∧ r3 = [] then some [(strOfBytes ks, v)]
              else none
            | _ => none
          else none
        | _ => none
      else none

/-- `orjson.loads`: succeeds iff the whole input is one JSON value of the
modelled fragment. -/
def jsonDecode (bs : Bytes) : Option Value :=
  match bs with
  | [] => none
  | b :: r =>
    if b = 123 then
      if r = [125] then some (.map [])
      else match parsePairs r.length r with
        | some m => some (.map m)
        | none => none
    else match parseScalarPre (b :: r) with
      | some (v, rest) => if rest = [] then some (.scalar v) else none
      | none => none

/-! ## General object codec (`cloudpickle`)

`cloudpickle` is an external collaborator ("a general object-serialization
codec", spec §4.1).  Modelled from the spec as an injective tagged byte
format: every pickled payload starts with the marker byte `0x80` (as real
pickle streams do), so pickled data is disjoint from ASCII text and from the
JSON fragment above, and `cloudpickle.loads` fails on anything that does not
carry the marker. -/

/-- Length field of the modelled pickle format (unary, terminated by `44`). -/
def encNat (n : Nat) : Bytes := List.replicate n 49 ++ [44]

/-- Read back a length field. -/
def decNatPre : Bytes → Option (Nat × Bytes)
  | [] => none
  | b :: r =>
    if b = 44 then some (0, r)
    else if b = 49 then
      match decNatPre r with
      | some (n, rest) => some (n + 1, rest)
      | none => none
    else none

/-- Length-prefixed string (any characters). -/
def encStrP (s : String) : Bytes := encNat s.data.length ++ s.data.map Char.toNat

/-- Read back a length-prefixed string. -/
def decStrPre (bs : Bytes) : Option (String × Bytes) :=
  match decNatPre bs with
  | some (n, rest) =>
    if n ≤ rest.length then some (strOfBytes (rest.take n), rest.drop n) else none
  | none => none

/-- Tagged encoding of a scalar. -/
def pickleScalar : Scalar → Bytes
  | .str s => 0 :: encStrP s
  | .int n => if n < 0 then 1 :: encNat n.natAbs else 2 :: encNat n.natAbs
  | .bool true => [3]
  | .bool false => [4]
  | .null => [5]

/-- Read back a tagged scalar. -/
def decScalarPre : Bytes → Option (Scalar × Bytes)
  | [] => none
  | t :: r =>
    if t = 0 then
      match decStrPre r with
      | some (s, rest) => some (.str s, rest)
      | none => none
    else if t = 1 then
      match decNatPre r with
      | some (n, rest) => some (.int (-(n : Int)), rest)
      | none => none
    else if t = 2 then
      match decNatPre r with
      | some (n, rest) => some (.int (n : Int), rest)
      | none => none
    else if t = 3 then some (.bool true, r)
    else if t = 4 then some (.bool false, r)
    else if t = 5 then some (.null, r)
    else none

/-- Tagged encoding of the members of a map. -/
def picklePairs : List (String × Scalar) → Bytes
  | [] => []
  | kv :: rest => encStrP kv.1 ++ pickleScalar kv.2 ++ picklePairs rest

/-- Read back `n` map members. -/
def decPairsPre : Nat → Bytes → Option (List (String × Scalar) × Bytes)
  | 0, bs => some ([], bs)
  | n + 1, bs =>
    match decStrPre bs with
    | some (k, r1) =>
      match decScalarPre r1 with
      | some (v, r2) =>
        match decPairsPre n r2 with
        | some (rest, r3) => some ((k, v) :: rest, r3)
        | none => none
      | none => none
    | none => none

/-- Body of the modelled pickle stream (after the marker byte). -/
def pickleBody : Value → Bytes
  | .bytes bs => 0 :: (encNat bs.length ++ bs)
  | .scalar v => 1 :: pickleScalar v
  | .map m => 2 :: (encNat m.length ++ picklePairs m)

/-- Read back a stream body. -/
def decBodyPre : Bytes → Option (Value × Bytes)
  | [] => none
  | t :: r =>
    if t = 0 then
      match decNatPre r with
      | some (n, rest) =>
        if n ≤ rest.length then some (.bytes (rest.take n), rest.drop n) else none
      | none => none
    else if t = 1 then
      match decScalarPre r with
      | some (v, rest) => some (.scalar v, rest)
      | none => none
    else if t = 2 then
      match decNatPre r with
      | some (n, r1) =>
        match decPairsPre n r1 with
        | some (m, rest) => some (.map m, rest)
        | none => none
      | none => none
    else none

/-- `cloudpickle.dumps`: marker byte `0x80` followed by the tagged body. -/
def pickleEncode (v : Value) : Bytes := 128 :: pickleBody v

/-- `cloudpickle.loads`: requires the marker and full consumption, raises
(`none`) otherwise. -/
def pickleDecode (bs : Bytes) : Option Value :=
  match bs with
  | [] => none
  | b :: r =>
    if b = 128 then
      match decBodyPre r with
      | some (v, []) => some v
      | _ => none
    else none

/-! ## `to_store` / `from_store` (`anystore/serialize.py`)

The optional explicit `serialization_func` / `deserialization_func` are
modelled as optional functions; the pydantic typed-model hook is outside the
model (every claim about the pipeline supplies no model). -/

/-- Is the value a byte string (`isinstance(value, bytes)`)? -/
def Value.isBytes : Value → Bool
  | .bytes _ => true
  | _ => false

/-- `value = serialization_func(value)` when an explicit function is given. -/
def applySFunc (sfunc : Option (Value → Value)) (value : Value) : Value :=
  match sfunc with
  | some f => f value
  | none => value

/-- `value = deserialization_func(value)` when an explicit function is given. -/
def applyDFunc (dfunc : Option (Bytes → Bytes)) (bs : Bytes) : Bytes :=
  match dfunc with
  | some f => f bs
  | none => bs

/-- `serialize.to_store(value, serialization_mode, serialization_func)`. -/
def to_store (value : Value) (mode : Mode := .auto)
    (sfunc : Option (Value → Value) := none) : Except StoreError Bytes :=
  let value := applySFunc sfunc value
  match mode with
  | .json =>
    match jsonEncode value with
    | some bs => .ok bs
    | none => .error .encodeError
  | .pickle => .ok (pickleEncode value)
  | .raw =>
    match value with
    | .bytes bs => .ok bs
    | _ => .error .invalidValue
  | .auto =>
    match value with
    | .bytes bs => .ok bs
    | .scalar (.str s) => .ok (strBytes s)
    | v =>
      match jsonEncode v with
      | some bs => .ok bs
      | none => .ok (pickleEncode v)

/-- `serialize.from_store(value, serialization_mode, deserialization_func)`. -/
def from_store (bs : Bytes) (mode : Mode := .auto)
    (dfunc : Option (Bytes → Bytes) := none) : Except StoreError Value :=
  let bs := applyDFunc dfunc bs
  match mode with
  | .raw => .ok (.bytes bs)
  | .pickle =>
    match pickleDecode bs with
    | some v => .ok v
    | none => .error .decodeError
  | .json =>
    match jsonDecode bs with
    | some v => .ok v
    | none => .error .decodeError
  | .auto =>
    match jsonDecode bs with
    | some v => .ok v
    | none =>
      match pickleDecode bs with
      | some v => .ok v
      | none =>
        match decodeUtf8? bs with
        | some s => .ok (.scalar (.str s))
        | none => .ok (.bytes bs)

/-- Serialize-then-deserialize under one mode returns the original value. -/
def RoundTrip (v : Value) (mode : Mode) : Prop :=
  (to_store v mode).bind (fun bs => from_store bs mode) = .ok v

/-- Does the input start with an ASCII digit?  (A digit run followed by such
input would be parsed further.) -/
def headDigit : Bytes → Bool
  | [] => false
  | b :: _ => isDigit b

/-- Characters that the modelled JSON codec represents byte-exactly:
ASCII, excluding the quote and the backslash (which `orjson` would escape). -/
def wfChar (c : Char) : Prop := c.toNat < 128 ∧ c.toNat ≠ 34 ∧ c.toNat ≠ 92

/-- Strings representable byte-exactly by the modelled JSON codec. -/
def wfStr (s : String) : Prop := ∀ c ∈ s.data, wfChar c

/-- Scalars representable byte-exactly by the modelled JSON codec. -/
def wfScalar : Scalar → Prop
  | .str s => wfStr s
  | _ => True

/-- Values representable byte-exactly by the modelled JSON codec (for the
`bytes` constructor nothing is required: `orjson` rejects it anyway). -/
def wfValue : Value → Prop
  | .bytes _ => True
  | .scalar v => wfScalar v
  | .map m => ∀ kv ∈ m, wfStr kv.1 ∧ wfScalar kv.2

instance : DecidablePred wfChar := fun c => by unfold wfChar; infer_instance

instance : DecidablePred wfStr := fun s => by unfold wfStr; infer_instance

instance : DecidablePred wfScalar := fun v => by
  unfold wfScalar; cases v <;> infer_instance

instance : DecidablePred wfValue := fun v => by
  unfold wfValue; cases v <;> infer_instance

/-! ## The store contract (`anystore/store/base.py`)

Store state is threaded explicitly; the wall clock is a natural-number
`now` parameter (seconds).  Keys are modelled as strings that carry no
percent-escapes and no leading or trailing slashes, on which `urllib`'s
`unquote` and Python's `strip("/")` are the identity. -/

/-- The per-store configuration fields of `StoreModel` that the modelled
operations consult.  `store_none_values` is referenced by `BaseStore.put`
(its declaration is not among the sources; its effective default is `true`,
matching the tests, which always store). -/
structure StoreConfig where
  readonly : Bool := false
  storeNoneValues : Bool := true
  serializationMode : Mode := .auto
  raiseOnNonexist : Bool := true
  defaultTtl : Nat := 0
deriving DecidableEq, Repr

/-- `BaseStore.get_key`: `unquote(f"{self._get_key_prefix()}/{key}".strip("/"))`,
modelled on slash-trimmed, escape-free keys. -/
def getKey (pfx key : String) : String :=
  if pfx = "" then key else if key = "" then pfx else pfx ++ "/" ++ key

/-- `BaseStore.put`'s TTL resolution `ttl = ttl or self.default_ttl or None`:
a zero or absent argument falls back to the store default, and a zero result
is `None`. -/
def effTtl (cfg : StoreConfig) (ttl : Option Nat) : Option Nat :=
  let t := match ttl with
    | some n => if n = 0 then cfg.defaultTtl else n
    | none => cfg.defaultTtl
  if t = 0 then none else some t

/-- `BaseStore.get` applies `from_store` to whatever `_read` returned; when
the key is missing and `raise_on_nonexist` is false, `_read` returns the
`None` sentinel, which survives the `auto` and `raw` pipelines unchanged but
makes `orjson.loads` / `cloudpickle.loads` raise a `TypeError` in the
`json` / `pickle` modes. -/
def fromStoreOpt (bs? : Option Bytes) (mode : Mode) : Except StoreError (Option Value) :=
  match bs? with
  | some bs => (from_store bs mode).map some
  | none =>
    match mode with
    | .auto => .ok none
    | .raw => .ok none
    | .pickle => .error .typeError
    | .json => .error .typeError

/-! ### In-memory backend (`anystore/store/memory.py`) -/

/-- Key prefix of the memory backend (`MemoryStore._get_key_prefix`). -/
def memPfx : String := "anystore"

/-- `MemoryStore` state: the backing dict `self._store` and the expiry dict
`self._ttl` (absolute expiry instants). -/
structure MemoryState where
  store : List (String × Bytes) := []
  ttl : List (String × Nat) := []
deriving DecidableEq, Repr

/-- Association-list lookup (Python dict `.get`). -/
def alist.get? {α : Type} : List (String × α) → String → Option α
  | [], _ => none
  | kv :: tl, k => if kv.1 = k then some kv.2 else alist.get? tl k

/-- Association-list removal (Python dict `.pop(k, None)`). -/
def alist.del {α : Type} : List (String × α) → String → List (String × α)
  | [], _ => []
  | kv :: tl, k => if kv.1 = k then alist.del tl k else kv :: alist.del tl k

/-- Association-list overwrite (Python dict `d[k] = v`). -/
def alist.set {α : Type} (l : List (String × α)) (k : String) (v : α) :
    List (String × α) :=
  (k, v) :: alist.del l k

/-- `MemoryStore._write`: store the value; record an expiry only when a
(truthy) TTL is given. -/
def memWrite (now : Nat) (key : String) (value : Bytes) (ttl : Option Nat)
    (st : MemoryState) : MemoryState :=
  let st := { st with store := alist.set st.store key value }
  match ttl with
  | some t => if t ≠ 0 then { st with ttl := alist.set st.ttl key (now + t) } else st
  | none => st

/-- `MemoryStore._delete`: `self._store.pop(key, None)` — the expiry dict is
left untouched. -/
def memDelete (key : String) (st : MemoryState) : MemoryState :=
  { st with store := alist.del st.store key }

/-- `MemoryStore._check_ttl`: evict the stored value (via `_delete`) once the
recorded expiry instant has passed. -/
def memCheckTtl (now : Nat) (key : String) (st : MemoryState) : MemoryState :=
  match alist.get? st.ttl key with
  | some e => if now > e then memDelete key st else st
  | none => st

/-- `MemoryStore._exists` (after its `_check_ttl`). -/
def memExistsRaw (now : Nat) (key : String) (st : MemoryState) : Bool × MemoryState :=
  let st := memCheckTtl now key st
  ((alist.get? st.store key).isSome, st)

/-- `MemoryStore._read`: check TTL, then raise `DoesNotExist` on a missing
key if requested, else return the stored value (the `None` sentinel when
missing). -/
def memRead (now : Nat) (key : String) (raise : Bool) (st : MemoryState) :
    Except StoreError (Option Bytes) × MemoryState :=
  let st := memCheckTtl now key st
  let p := memExistsRaw now key st
  if raise ∧ ¬ p.1 then (.error .doesNotExist, p.2)
  else (.ok (alist.get? p.2.store key), p.2)

/-- `BaseStore.get` over the memory backend. -/
def memGet (cfg : StoreConfig) (now : Nat) (key : String) (raise? : Option Bool)
    (st : MemoryState) : Except StoreError (Option Value) × MemoryState :=
  let raise := raise?.getD cfg.raiseOnNonexist
  match memRead now (getKey memPfx key) raise st with
  | (.ok bs?, st) => (fromStoreOpt bs? cfg.serializationMode, st)
  | (.error e, st) => (.error e, st)

/-- `BaseStore.put` over the memory backend: read-only guard, the
`store_none_values` guard, serialization, then `_write`. -/
def memPut (cfg : StoreConfig) (now : Nat) (key : String) (value : Value)
    (ttl : Option Nat) (st : MemoryState) : Except StoreError MemoryState :=
  if cfg.readonly then .error .readOnly
  else if ¬ cfg.storeNoneValues then .ok st
  else
    match to_store value cfg.serializationMode with
    | .ok bs => .ok (memWrite now (getKey memPfx key) bs (effTtl cfg ttl) st)
    | .error e => .error e

/-- `BaseStore.exists` over the memory backend. -/
def memExists (now : Nat) (key : String) (st : MemoryState) : Bool × MemoryState :=
  memExistsRaw now (getKey memPfx key) st

/-- `BaseStore.delete` over the memory backend (read-only guard, then
`_delete`). -/
def memDeleteOp (cfg : StoreConfig) (key : String) (st : MemoryState) :
    Except StoreError MemoryState :=
  if cfg.readonly then .error .readOnly
  else .ok (memDelete (getKey memPfx key) st)

/-- The key's expiry record (if any) has not passed at instant `now`.
The memory backend keeps expiry records across deletes and across writes
without a TTL, so reads can evict otherwise-live entries (see C10); this
predicate rules that out. -/
def ttlOk (now : Nat) (key : String) (st : MemoryState) : Prop :=
  match alist.get? st.ttl key with
  | some e => now ≤ e
  | none => True

instance (now : Nat) (key : String) (st : MemoryState) :
    Decidable (ttlOk now key st) := by
  unfold ttlOk
  cases alist.get? st.ttl key <;> infer_instance

/-- `MemoryStore._iterate_keys(self, prefix=None)`: substring prefix match
over the backing dict, stripping the store prefix from each yielded key.
Note the signature: the memory backend's override accepts only the `prefix`
criterion. -/
def memIterateKeysImpl (st : MemoryState) (pfx? : Option String) : List String :=
  let p := getKey memPfx (pfx?.getD "")
  ((st.store.map Prod.fst).filter (fun k => p.isPrefixOf k)).map
    (fun k => (k.drop (memPfx.length + 1)))

/-- `BaseStore.iterate_keys` dispatches
`self._iterate_keys(prefix, exclude_prefix, glob)` with three positional
arguments.  `MemoryStore._iterate_keys` accepts at most one positional
criterion, so on the memory backend the dynamic call raises `TypeError`
before yielding any key. -/
def memIterateKeys (_st : MemoryState) (_pfx? _ex? _glob? : Option String) :
    Except StoreError (List String) :=
  .error .typeError

/-- `MemoryStore.__truediv__` raises `NotImplementedError`. -/
def memTruediv (_st : MemoryState) (_p : String) :
    Except StoreError (MemoryState × String) :=
  .error .notImplemented

/-- Modelled from the spec: the generic sub-path derivation
`store / "subpath"` (§4.3) — its generic implementation is not among the
sources; only the memory backend's override is.  It returns a new store view
sharing the backend connection, with the key prefix extended by the path,
and rejects upward traversal (`..`). -/
def pathSegs : List Char → List (List Char)
  | [] => [[]]
  | c :: r =>
    if c = '/' then [] :: pathSegs r
    else
      match pathSegs r with
      | s :: rest => (c :: s) :: rest
      | [] => [[c]]

/-- Does the path contain an upward-traversal (`..`) segment? -/
def hasUpward (p : String) : Bool := (pathSegs p.data).contains ['.', '.']

def subStorePfx (pfx p : String) : Except StoreError String :=
  if hasUpward p then .error .invalidValue
  else .ok (getKey pfx p)

/-! ### Relational backend (`anystore/store/sql.py`) -/

/-- One row of the `anystore` table: `key` (primary key), `value` blob,
`timestamp` (server default `now()` on insert), optional `ttl` seconds. -/
structure SqlRow where
  value : Bytes
  timestamp : Nat
  ttl : Option Nat
deriving DecidableEq, Repr

/-- `SqlStore` state: the table, keyed by primary key. -/
structure SqlState where
  table : List (String × SqlRow) := []
deriving DecidableEq, Repr

/-- The sql backend's key prefix is empty (`SqlStore._get_key_prefix`). -/
def sqlPfx : String := ""

/-- `SqlStore._write`: try `INSERT` (the `timestamp` column takes the server
default `now()`); on conflict fall back to `UPDATE value, ttl` — which
leaves the original `timestamp` in place. -/
def sqlWrite (now : Nat) (key : String) (value : Bytes) (ttl : Option Nat)
    (st : SqlState) : SqlState :=
  match alist.get? st.table key with
  | none => { table := alist.set st.table key ⟨value, now, ttl⟩ }
  | some row => { table := alist.set st.table key ⟨value, row.timestamp, ttl⟩ }

/-- Is the row expired at instant `now` (`ttl and ts + ttl < utcnow()`)? -/
def sqlExpired (now : Nat) (row : SqlRow) : Bool :=
  match row.ttl with
  | some t => t ≠ 0 && row.timestamp + t < now
  | none => false

/-- `SqlStore._delete`. -/
def sqlDelete (key : String) (st : SqlState) : SqlState :=
  { table := alist.del st.table key }

/-- `SqlStore._read`: select the row; on lazy expiry detection delete it and
treat the key as missing. -/
def sqlRead (now : Nat) (key : String) (raise : Bool) (st : SqlState) :
    Except StoreError (Option Bytes) × SqlState :=
  match alist.get? st.table key with
  | some row =>
    if sqlExpired now row then
      let st := sqlDelete key st
      if raise then (.error .doesNotExist, st) else (.ok none, st)
    else (.ok (some row.value), st)
  | none => if raise then (.error .doesNotExist, st) else (.ok none, st)

/-- `SqlStore._exists`. -/
def sqlExistsRaw (key : String) (st : SqlState) : Bool :=
  (alist.get? st.table key).isSome

/-- `BaseStore.get` over the sql backend. -/
def sqlGet (cfg : StoreConfig) (now : Nat) (key : String) (raise? : Option Bool)
    (st : SqlState) : Except StoreError (Option Value) × SqlState :=
  let raise := raise?.getD cfg.raiseOnNonexist
  match sqlRead now (getKey sqlPfx key) raise st with
  | (.ok bs?, st) => (fromStoreOpt bs? cfg.serializationMode, st)
  | (.error e, st) => (.error e, st)

/-- `BaseStore.put` over the sql backend. -/
def sqlPut (cfg : StoreConfig) (now : Nat) (key : String) (value : Value)
    (ttl : Option Nat) (st : SqlState) : Except StoreError SqlState :=
  if cfg.readonly then .error .readOnly
  else if ¬ cfg.storeNoneValues then .ok st
  else
    match to_store value cfg.serializationMode with
    | .ok bs => .ok (sqlWrite now (getKey sqlPfx key) bs (effTtl cfg ttl) st)
    | .error e => .error e

/-- `BaseStore.exists` over the sql backend. -/
def sqlExists (key : String) (st : SqlState) : Bool :=
  sqlExistsRaw (getKey sqlPfx key) st

/-! ### Redis-like backend (`anystore/store/redis.py`)

The client calls are in the sources (`self._con.set(key, value, ex=ttl)`,
`.get`, `.exists`, `.delete`); the server itself is an external
collaborator.  Modelled from the spec: the server stores the value with a
native expiry instant when `EX` is given, and an expired key behaves exactly
like an absent one. -/

/-- Redis server state: value plus optional absolute expiry instant. -/
structure RedisState where
  data : List (String × (Bytes × Option Nat)) := []
deriving DecidableEq, Repr

/-- Default key prefix of the redis backend (`RedisStore._get_key_prefix`). -/
def redisPfx : String := "anystore"

/-- Is the entry live at instant `now`?  (Modelled from the spec: native
server-side expiry.) -/
def redisLive (now : Nat) (e : Bytes × Option Nat) : Bool :=
  match e.2 with
  | some t => now < t
  | none => true

/-- `SET key value EX ttl` (a set without `EX` clears any previous expiry). -/
def redisWrite (now : Nat) (key : String) (value : Bytes) (ttl : Option Nat)
    (st : RedisState) : RedisState :=
  { data := alist.set st.data key (value, ttl.map (now + ·)) }

/-- Server-side `EXISTS`. -/
def redisExistsRaw (now : Nat) (key : String) (st : RedisState) : Bool :=
  match alist.get? st.data key with
  | some e => redisLive now e
  | none => false

/-- `RedisStore._read`: raise `DoesNotExist` for a missing key when
requested, else `GET` (which is `None` for missing or expired keys). -/
def redisRead (now : Nat) (key : String) (raise : Bool) (st : RedisState) :
    Except StoreError (Option Bytes) :=
  if raise ∧ ¬ redisExistsRaw now key st then .error .doesNotExist
  else
    match alist.get? st.data key with
    | some e => if redisLive now e then .ok (some e.1) else .ok none
    | none => .ok none

/-- `BaseStore.get` over the redis backend. -/
def redisGet (cfg : StoreConfig) (now : Nat) (key : String) (raise? : Option Bool)
    (st : RedisState) : Except StoreError (Option Value) :=
  let raise := raise?.getD cfg.raiseOnNonexist
  match redisRead now (getKey redisPfx key) raise st with
  | .ok bs? => fromStoreOpt bs? cfg.serializationMode
  | .error e => .error e

/-- `BaseStore.put` over the redis backend. -/
def redisPut (cfg : StoreConfig) (now : Nat) (key : String) (value : Value)
    (ttl : Option Nat) (st : RedisState) : Except StoreError RedisState :=
  if cfg.readonly then .error .readOnly
  else if ¬ cfg.storeNoneValues then .ok st
  else
    match to_store value cfg.serializationMode with
    | .ok bs => .ok (redisWrite now (getKey redisPfx key) bs (effTtl cfg ttl) st)
    | .error e => .error e

/-- `BaseStore.exists` over the redis backend. -/
def redisExists (now : Nat) (key : String) (st : RedisState) : Bool :=
  redisExistsRaw now (getKey redisPfx key) st

/-! ### Append-only archive backend (`anystore/store/zip.py`) -/

/-- `ZipStore` state: the archive's directory of entries. -/
structure ZipState where
  entries : List (String × Bytes) := []
deriving DecidableEq, Repr

/-- The zip backend's key prefix is empty (`ZipStore._get_key_prefix`). -/
def zipPfx : String := ""

/-- `ZipStore._exists`. -/
def zipExistsRaw (key : String) (st : ZipState) : Bool :=
  (alist.get? st.entries key).isSome

/-- `ZipStore._writer` / `_write`: refuse to overwrite an existing key with
`ReadOnlyError`, otherwise append the new entry. -/
def zipWrite (key : String) (value : Bytes) (st : ZipState) :
    Except StoreError ZipState :=
  if zipExistsRaw key st then .error .readOnly
  else .ok { entries := alist.set st.entries key value }

/-- `ZipStore._read`: missing entries raise `KeyError`, mapped to
`DoesNotExist` when requested. -/
def zipRead (key : String) (raise : Bool) (st : ZipState) :
    Except StoreError (Option Bytes) :=
  match alist.get? st.entries key with
  | some bs => .ok (some bs)
  | none => if raise then .error .doesNotExist else .ok none

/-- `BaseStore.get` over the zip backend. -/
def zipGet (cfg : StoreConfig) (key : String) (raise? : Option Bool)
    (st : ZipState) : Except StoreError (Option Value) :=
  let raise := raise?.getD cfg.raiseOnNonexist
  match zipRead (getKey zipPfx key) raise st with
  | .ok bs? => fromStoreOpt bs? cfg.serializationMode
  | .error e => .error e

/-- `BaseStore.put` over the zip backend (TTL is not supported and ignored
by the driver). -/
def zipPut (cfg : StoreConfig) (key : String) (value : Value) (st : ZipState) :
    Except StoreError ZipState :=
  if cfg.readonly then .error .readOnly
  else if ¬ cfg.storeNoneValues then .ok st
  else
    match to_store value cfg.serializationMode with
    | .ok bs =>
      match zipWrite (getKey zipPfx key) bs st with
      | .ok st => .ok st
      | .error e => .error e
    | .error e => .error e

/-- `BaseStore.exists` over the zip backend. -/
def zipExists (key : String) (st : ZipState) : Bool :=
  zipExistsRaw (getKey zipPfx key) st

/-! ## Mirror (`anystore/mirror.py`)

`MirrorWorker.handle_task` moves raw bytes between two stores through
`source.open(task, "rb")` / `target.open(task, "wb")`, so both sides are
modelled at the byte level as key/bytes stores with the base contract's
read, overwriting write, and exists.  The worker pool's task source is
`source.iterate_keys()` (the stored keys, in order); the pool's execution is
modelled sequentially — the handler calls of the tasks, in enumeration
order. -/

/-- A store reduced to its byte-level contents, as the mirror pass sees it. -/
structure KV where
  entries : List (String × Bytes) := []
deriving DecidableEq, Repr

/-- The keys `iterate_keys()` enumerates. -/
def KV.keys (s : KV) : List String := s.entries.map Prod.fst

/-- `exists(key)`. -/
def KV.exists (s : KV) (k : String) : Bool := (alist.get? s.entries k).isSome

/-- `open(key, "rb").read()`. -/
def KV.read (s : KV) (k : String) : Option Bytes := alist.get? s.entries k

/-- `open(key, "wb").write(bytes)` — overwriting. -/
def KV.write (s : KV) (k : String) (bs : Bytes) : KV :=
  ⟨alist.set s.entries k bs⟩

/-- `MirrorWorker.handle_task`: skip an existing target key unless
`overwrite`, otherwise stream-copy the bytes and count it as mirrored.
The accumulator is `(target, mirrored, skipped)`. -/
def mirrorStep (overwrite : Bool) (source : KV) (acc : KV × Nat × Nat)
    (task : String) : KV × Nat × Nat :=
  let (target, mirrored, skipped) := acc
  if ¬ overwrite ∧ target.exists task then (target, mirrored, skipped + 1)
  else
    match source.read task with
    | some bs => (target.write task bs, mirrored + 1, skipped)
    | none => (target, mirrored, skipped)

/-- `mirror(source, target, overwrite)`: run the handler over
`source.iterate_keys()` and return the final target with the
`(mirrored, skipped)` counters. -/
def mirrorRun (overwrite : Bool) (source target : KV) : KV × Nat × Nat :=
  source.keys.foldl (mirrorStep overwrite source) (target, 0, 0)

/-! ## Worker pool (`anystore/worker.py`)

The pool runs one producer thread, `N` consumer threads and a heartbeat.
It is modelled as a small-step interleaving relation over the shared state:
the FIFO queue, the `pending`/`done`/`errors` counters (each `count(...)`
call is one atomic step, matching the mutex in `Worker.count`), the
producer's position, and one program counter per consumer thread.  Tasks
are abstracted to the one bit the pool observes: whether `handle_task`
succeeds (`true`) or raises (`false`). -/

/-- An item of `Worker.queue`: a task, or the terminating `None` sentinel. -/
inductive QItem
  | task (ok : Bool)
  | sentinel
deriving DecidableEq, Repr

/-- Program counter of one consumer thread inside `Worker.consume`.

* `idle` — about to block on `queue.get()`;
* `handled ok` — `handle_task` returned (`ok = true`) or raised
  (`ok = false`); about to run `count(pending=-1)`;
* `counted ok` — about to run `count(done=1)` or `count(errors=1)`;
* `sentinelCheck` — popped and re-enqueued the sentinel; about to test
  `self.counter["pending"] < 1`;
* `exited` — broke out of the loop. -/
inductive CPC
  | idle
  | handled (ok : Bool)
  | counted (ok : Bool)
  | sentinelCheck
  | exited
deriving DecidableEq, Repr

/-- The shared state of a running pool.  `toProduce` abstracts the remaining
task source; `mid` holds a task whose `count(pending=1)` has run but whose
`queue.put` has not (the two statements of `Worker.queue_task`);
`escaped` records an exception propagating out of `run()`. -/
structure WState where
  toProduce : List Bool
  mid : Option Bool
  sentinelPushed : Bool
  queue : List QItem
  pending : Int
  done : Nat
  errors : Nat
  consumers : List CPC
  escaped : Bool
deriving DecidableEq, Repr

/-- The pool state at the start of `Worker.run`: task source intact, queue
empty, counters zero, `numConsumers` consumers entering `consume`. -/
def WInit (outcomes : List Bool) (numConsumers : Nat) : WState :=
  { toProduce := outcomes
    mid := none
    sentinelPushed := false
    queue := []
    pending := 0
    done := 0
    errors := 0
    consumers := List.replicate numConsumers .idle
    escaped := false }

/-- One interleaved step of the pool.  `absorb` is true when a custom error
handler is installed (`Worker.exception` then swallows the task's
exception); with `absorb = false`, `exception` re-raises, the consumer
thread dies, and `RaisingThread.join` re-raises inside `run()`. -/
inductive WStep (absorb : Bool) : WState → WState → Prop
  /-- `Worker.queue_task`, first half: `self.count(pending=1)`. -/
  | prodCount (s : WState) (t : Bool) (rest : List Bool)
      (hp : s.toProduce = t :: rest) (hm : s.mid = none) :
      WStep absorb s { s with toProduce := rest, mid := some t,
                              pending := s.pending + 1 }
  /-- `Worker.queue_task`, second half: `self.queue.put(task)`. -/
  | prodPush (s : WState) (t : Bool) (hm : s.mid = some t) :
      WStep absorb s { s with mid := none, queue := s.queue ++ [.task t] }
  /-- End of `Worker.produce`: `self.queue.put(None)`. -/
  | prodSentinel (s : WState) (hp : s.toProduce = []) (hm : s.mid = none)
      (hs : s.sentinelPushed = false) :
      WStep absorb s { s with sentinelPushed := true,
                              queue := s.queue ++ [.sentinel] }
  /-- A consumer pops a task and runs `handle_task` on it. -/
  | consPop (s : WState) (i : Nat) (t : Bool) (q : List QItem)
      (hc : s.consumers.get? i = some .idle) (hq : s.queue = .task t :: q) :
      WStep absorb s { s with queue := q, consumers := s.consumers.set i (.handled t) }
  /-- `self.count(pending=-1)` after the handler finished or raised. -/
  | consDec (s : WState) (i : Nat) (t : Bool)
      (hc : s.consumers.get? i = some (.handled t)) :
      WStep absorb s { s with pending := s.pending - 1,
                              consumers := s.consumers.set i (.counted t) }
  /-- `self.count(done=1)` for a successful task. -/
  | consDone (s : WState) (i : Nat)
      (hc : s.consumers.get? i = some (.counted true)) :
      WStep absorb s { s with done := s.done + 1,
                              consumers := s.consumers.set i .idle }
  /-- `self.count(errors=1)` then `self.exception(task, e)` for a failing
  task: absorbed by a custom handler, or else the consumer thread dies and
  the exception resurfaces out of `run()`. -/
  | consErr (s : WState) (i : Nat)
      (hc : s.consumers.get? i = some (.counted false)) :
      WStep absorb s { s with errors := s.errors + 1,
                              consumers := s.consumers.set i
                                (if absorb then .idle else .exited),
                              escaped := s.escaped || !absorb }
  /-- A consumer pops the sentinel and re-enqueues it for its siblings. -/
  | consSentinel (s : WState) (i : Nat) (q : List QItem)
      (hc : s.consumers.get? i = some .idle) (hq : s.queue = .sentinel :: q) :
      WStep absorb s { s with queue := q ++ [.sentinel],
                              consumers := s.consumers.set i .sentinelCheck }
  /-- `if self.counter["pending"] < 1: break`. -/
  | consExit (s : WState) (i : Nat)
      (hc : s.consumers.get? i = some .sentinelCheck) (hp : s.pending < 1) :
      WStep absorb s { s with consumers := s.consumers.set i .exited }
  /-- `pending ≥ 1`: keep draining. -/
  | consLoop (s : WState) (i : Nat)
      (hc : s.consumers.get? i = some .sentinelCheck) (hp : ¬ s.pending < 1) :
      WStep absorb s { s with consumers := s.consumers.set i .idle }

/-- The state in which `Worker.run` has returned: the producer has drained
its source and pushed the sentinel, and every consumer has left its loop. -/
def WFinal (s : WState) : Prop :=
  s.toProduce = [] ∧ s.mid = none ∧ s.sentinelPushed = true ∧
    ∀ pc ∈ s.consumers, pc = CPC.exited

/-- Is the queue item a task (not the sentinel)? -/
def isTaskItem : QItem → Bool
  | .task _ => true
  | .sentinel => false

/-- Number of tasks waiting in the queue. -/
def queueTasks (q : List QItem) : Nat := q.countP isTaskItem

/-- Is the consumer between `handle_task` and `count(pending=-1)`? -/
def isHandled : CPC → Bool
  | .handled _ => true
  | _ => false

/-- Is the consumer between `count(pending=-1)` and `count(done/errors=1)`? -/
def isCounted : CPC → Bool
  | .counted _ => true
  | _ => false

/-- One when a task sits between the producer's two `queue_task` steps. -/
def midCount : Option Bool → Nat
  | some _ => 1
  | none => 0

/-- The inductive invariant of a pool run with an absorbing error handler
over `N` tasks:

1. every task is in exactly one place — already counted (`done`/`errors`),
   not yet produced, in the producer's hand, in the queue, or inside one of
   the consumers;
2. the `pending` counter equals the number of tasks counted in but not yet
   counted out;
3. the sentinel sits in the queue only after the producer pushed it;
4. the sentinel is pushed only once the task source is fully drained;
5. a consumer checks `pending < 1` only after the sentinel was pushed;
6. once any consumer has exited, no tasks remain unproduced, queued or
   unacknowledged;
7. no exception has escaped `run()`;
8. the number of consumer threads stays `C`. -/
def WInv (N C : Nat) (s : WState) : Prop :=
  s.done + s.errors + s.toProduce.length + midCount s.mid + queueTasks s.queue
      + s.consumers.countP isHandled + s.consumers.countP isCounted = N ∧
  s.pending = ((midCount s.mid + queueTasks s.queue
      + s.consumers.countP isHandled : Nat) : Int) ∧
  (QItem.sentinel ∈ s.queue → s.sentinelPushed = true) ∧
  (s.sentinelPushed = true → s.toProduce = [] ∧ s.mid = none) ∧
  (CPC.sentinelCheck ∈ s.consumers → s.sentinelPushed = true) ∧
  (CPC.exited ∈ s.consumers → s.toProduce = [] ∧ s.mid = none ∧
      queueTasks s.queue = 0 ∧ s.consumers.countP isHandled = 0) ∧
  s.escaped = false ∧
  s.consumers.length = C

instance {ε α : Type} [DecidableEq ε] [DecidableEq α] : DecidableEq (Except ε α) := by
  intro a b
  cases a <;> cases b
  case error.error e f => exact decidable_of_iff (e = f) (by simp)
  case ok.ok x y => exact decidable_of_iff (x = y) (by simp)
  all_goals exact isFalse (by simp)

instance (v : Value) (mode : Mode) : Decidable (RoundTrip v mode) := by
  unfold RoundTrip; infer_instance

/-! ## Properties of the text encoding -/

theorem strOfBytes_strBytes (s : String) : strOfBytes (strBytes s) = s := by
  cases s with
  | mk data =>
    simp [strOfBytes, strBytes, Function.comp_def, Char.ofNat_toNat]

theorem strOfBytes_map_toNat (cs : List Char) :
    strOfBytes (cs.map Char.toNat) = ⟨cs⟩ := by
  simp [strOfBytes, Function.comp_def, Char.ofNat_toNat]

/-! ## Round-trip of the modelled pickle codec -/

theorem decNatPre_encNat (n : Nat) (rest : Bytes) :
    decNatPre (encNat n ++ rest) = some (n, rest) := by
  induction n with
  | zero => simp [encNat, decNatPre]
  | succ n ih =>
    simp only [encNat, List.replicate_succ, List.cons_append, decNatPre,
      List.append_assoc]
    simp only [encNat, List.append_assoc, List.singleton_append] at ih
    simp [ih]

theorem decStrPre_encStrP (s : String) (rest : Bytes) :
    decStrPre (encStrP s ++ rest) = some (s, rest) := by
  simp only [encStrP, List.append_assoc, decStrPre, decNatPre_encNat]
  have hlen : (s.data.map Char.toNat).length = s.data.length := by simp
  rw [← hlen]
  simp [List.take_left, List.drop_left, strOfBytes_map_toNat]

theorem decScalarPre_pickleScalar (v : Scalar) (rest : Bytes) :
    decScalarPre (pickleScalar v ++ rest) = some (v, rest) := by
  cases v with
  | str s => simp [pickleScalar, decScalarPre, decStrPre_encStrP]
  | int n =>
    by_cases h : n < 0
    · simp only [pickleScalar, if_pos h, List.cons_append, List.append_assoc]
      simp [decScalarPre, decNatPre_encNat, abs_of_neg h]
    · simp only [pickleScalar, if_neg h, List.cons_append, List.append_assoc]
      simp [decScalarPre, decNatPre_encNat, abs_of_nonneg (not_lt.mp h)]
  | bool b => cases b <;> simp [pickleScalar, decScalarPre]
  | null => simp [pickleScalar, decScalarPre]

theorem decPairsPre_picklePairs (m : List (String × Scalar)) (rest : Bytes) :
    decPairsPre m.length (picklePairs m ++ rest) = some (m, rest) := by
  induction m with
  | nil => simp [picklePairs, decPairsPre]
  | cons kv tl ih =>
    simp only [picklePairs, List.length_cons, decPairsPre, List.append_assoc,
      decStrPre_encStrP, decScalarPre_pickleScalar, ih]

theorem decBodyPre_pickleBody (v : Value) (rest : Bytes) :
    decBodyPre (pickleBody v ++ rest) = some (v, rest) := by
  cases v with
  | bytes bs =>
    simp only [pickleBody, List.cons_append, decBodyPre, List.append_assoc,
      decNatPre_encNat]
    simp [List.take_left, List.drop_left]
  | scalar v => simp [pickleBody, decBodyPre, decScalarPre_pickleScalar]
  | map m =>
    simp only [pickleBody, List.cons_append, decBodyPre, List.append_assoc,
      decNatPre_encNat, decPairsPre_picklePairs]
    norm_num

theorem pickleDecode_pickleEncode (v : Value) :
    pickleDecode (pickleEncode v) = some v := by
  have h := decBodyPre_pickleBody v []
  simp only [List.append_nil] at h
  simp [pickleEncode, pickleDecode, h]

/-! ## Round-trip of the modelled JSON codec -/

theorem natDigitsAux_zero (fuel : Nat) : natDigitsAux fuel 0 = [] := by
  cases fuel <;> rfl

theorem digitsVal_append_single (ds : List Nat) (d : Nat) :
    digitsVal (ds ++ [d]) = digitsVal ds * 10 + (d - 48) := by
  simp [digitsVal, List.foldl_append]

theorem natDigitsAux_spec :
    ∀ fuel n, n ≤ fuel → n ≠ 0 →
      (∀ d ∈ (natDigitsAux fuel n).reverse.map (· + 48), isDigit d = true) ∧
      digitsVal ((natDigitsAux fuel n).reverse.map (· + 48)) = n ∧
      natDigitsAux fuel n ≠ [] := by
  intro fuel
  induction fuel with
  | zero => intro n hle hne; omega
  | succ fuel ih =>
    intro n hle hne
    obtain ⟨m, rfl⟩ : ∃ m, n = m + 1 := ⟨n - 1, by omega⟩
    simp only [natDigitsAux, List.reverse_cons, List.map_append, List.map_cons,
      List.map_nil]
    by_cases hq : (m + 1) / 10 = 0
    · have hlt : m + 1 < 10 := by omega
      rw [hq, natDigitsAux_zero]
      refine ⟨?_, ?_, by simp⟩
      · intro d hd
        simp only [List.reverse_nil, List.map_nil, List.nil_append,
          List.mem_singleton] at hd
        subst hd
        simp only [isDigit, decide_eq_true_eq, Bool.and_eq_true]
        exact ⟨by omega, by omega⟩
      · simp [digitsVal]
        omega
    · have hq10 : (m + 1) / 10 ≤ fuel := by
        have := Nat.div_lt_self (Nat.succ_pos m) (by norm_num : 1 < 10)
        omega
      obtain ⟨hdig, hval, hne'⟩ := ih ((m + 1) / 10) hq10 hq
      refine ⟨?_, ?_, by simp⟩
      · intro d hd
        rcases List.mem_append.mp hd with h | h
        · exact hdig d h
        · simp only [List.mem_singleton] at h
          subst h
          simp only [isDigit, decide_eq_true_eq, Bool.and_eq_true]
          have := Nat.mod_lt (m + 1) (show 0 < 10 by norm_num)
          exact ⟨by omega, by omega⟩
      · rw [digitsVal_append_single, hval]
        have := Nat.div_add_mod (m + 1) 10
        omega

theorem printNat_spec (n : Nat) :
    (∀ d ∈ printNat n, isDigit d = true) ∧ digitsVal (printNat n) = n ∧
      printNat n ≠ [] := by
  by_cases h : n = 0
  · subst h
    refine ⟨?_, by simp [printNat, digitsVal], by simp [printNat]⟩
    intro d hd
    simp [printNat] at hd
    subst hd
    decide
  · have := natDigitsAux_spec n n le_rfl h
    simp only [printNat, if_neg h]
    exact ⟨this.1, this.2.1, by
      intro hc
      exact this.2.2 (by simpa using congrArg List.length hc)⟩

theorem takeWhileDigits_append (ds rest : Bytes)
    (hds : ∀ d ∈ ds, isDigit d = true) (hrest : headDigit rest = false) :
    takeWhileDigits (ds ++ rest) = (ds, rest) := by
  induction ds with
  | nil =>
    cases rest with
    | nil => rfl
    | cons b r =>
      simp only [headDigit] at hrest
      simp [takeWhileDigits, hrest]
  | cons d tl ih =>
    have hd : isDigit d = true := hds d (by simp)
    have htl : ∀ x ∈ tl, isDigit x = true := fun x hx => hds x (by simp [hx])
    simp [takeWhileDigits, hd, ih htl]

theorem parseDigitsPre_printNat (n : Nat) (rest : Bytes)
    (hrest : headDigit rest = false) :
    parseDigitsPre (printNat n ++ rest) = some (n, rest) := by
  obtain ⟨hdig, hval, hne⟩ := printNat_spec n
  have htw := takeWhileDigits_append (printNat n) rest hdig hrest
  obtain ⟨d, tl, hcons⟩ : ∃ d tl, printNat n = d :: tl := by
    cases hpn : printNat n with
    | nil => exact absurd hpn hne
    | cons d tl => exact ⟨d, tl, rfl⟩
  rw [hcons] at htw hval ⊢
  simp only [List.cons_append] at htw
  simp [parseDigitsPre, htw, hval]

theorem takeUntilQuote_append (cs rest : Bytes) (h : ∀ c ∈ cs, c ≠ 34) :
    takeUntilQuote (cs ++ 34 :: rest) = some (cs, rest) := by
  induction cs with
  | nil => simp [takeUntilQuote]
  | cons c tl ih =>
    have hc : c ≠ 34 := h c (by simp)
    have htl : ∀ x ∈ tl, x ≠ 34 := fun x hx => h x (by simp [hx])
    simp [takeUntilQuote, hc, ih htl]

theorem strBytes_ne_quote (s : String) (hs : wfStr s) :
    ∀ c ∈ strBytes s, c ≠ 34 := by
  intro c hc
  simp only [strBytes, List.mem_map] at hc
  obtain ⟨ch, hch, rfl⟩ := hc
  exact (hs ch hch).2.1

theorem strBytes_lt_128 (s : String) (hs : wfStr s) :
    ∀ c ∈ strBytes s, c < 128 := by
  intro c hc
  simp only [strBytes, List.mem_map] at hc
  obtain ⟨ch, hch, rfl⟩ := hc
  exact (hs ch hch).1

theorem parseScalarPre_jsonScalar (v : Scalar) (rest : Bytes)
    (hv : wfScalar v) (hrest : headDigit rest = false) :
    parseScalarPre (jsonScalar v ++ rest) = some (v, rest) := by
  cases v with
  | null => simp [jsonScalar, parseScalarPre, List.isPrefixOf]
  | bool b => cases b <;> simp [jsonScalar, parseScalarPre, List.isPrefixOf]
  | str s =>
    have hq := takeUntilQuote_append (strBytes s) rest (strBytes_ne_quote s hv)
    simp only [jsonScalar, jsonStr, List.cons_append, List.append_assoc,
      List.singleton_append]
    simp [parseScalarPre, List.isPrefixOf, hq, strOfBytes_strBytes]
  | int n =>
    by_cases hneg : n < 0
    · have hpr := parseDigitsPre_printNat n.natAbs rest hrest
      simp only [jsonScalar, printInt, if_pos hneg, List.cons_append]
      simp [parseScalarPre, List.isPrefixOf, hpr, abs_of_neg hneg]
    · have hpr := parseDigitsPre_printNat n.natAbs rest hrest
      obtain ⟨hdig, -, hne⟩ := printNat_spec n.natAbs
      obtain ⟨d, tl, hcons⟩ : ∃ d tl, printNat n.natAbs = d :: tl := by
        cases hpn : printNat n.natAbs with
        | nil => exact absurd hpn hne
        | cons d tl => exact ⟨d, tl, rfl⟩
      have hd : isDigit d = true := hdig d (by simp [hcons])
      have hdb : 48 ≤ d ∧ d ≤ 57 := by
        simpa [isDigit, Bool.and_eq_true, decide_eq_true_eq] using hd
      rw [hcons] at hpr
      simp only [List.cons_append] at hpr
      simp only [jsonScalar, printInt, if_neg hneg, hcons, List.cons_append]
      have h34 : d ≠ 34 := by omega
      have h45 : d ≠ 45 := by omega
      have h110 : (110 == d) = false := by simp; omega
      have h116 : (116 == d) = false := by simp; omega
      have h102 : (102 == d) = false := by simp; omega
      simp [parseScalarPre, List.isPrefixOf, h34, h45, h110, h116, h102, hpr,
        abs_of_nonneg (not_lt.mp hneg)]

theorem parsePairs_jsonPairsBody :
    ∀ (m : List (String × Scalar)) (fuel : Nat), m ≠ [] → m.length ≤ fuel →
      (∀ kv ∈ m, wfStr kv.1 ∧ wfScalar kv.2) →
      parsePairs fuel (jsonPairsBody m ++ [125]) = some m := by
  intro m
  induction m with
  | nil => intro fuel h; exact absurd rfl h
  | cons kv tl ih =>
    intro fuel _ hlen hwf
    obtain ⟨f, rfl⟩ : ∃ f, fuel = f + 1 := ⟨fuel - 1, by simp at hlen; omega⟩
    have hkv := hwf kv (by simp)
    cases tl with
    | nil =>
      have hq := takeUntilQuote_append (strBytes kv.1)
        (58 :: (jsonScalar kv.2 ++ [125])) (strBytes_ne_quote kv.1 hkv.1)
      have hsc := parseScalarPre_jsonScalar kv.2 [125] hkv.2 (by decide)
      simp only [jsonPairsBody, jsonPair, jsonStr, List.cons_append,
        List.append_assoc, List.singleton_append]
      simp [parsePairs, hq, hsc, strOfBytes_strBytes]
    | cons kv2 tl2 =>
      have htl : (kv2 :: tl2 : List (String × Scalar)) ≠ [] := by simp
      have hlen2 : (kv2 :: tl2).length ≤ f := by simp at hlen ⊢; omega
      have hwf2 : ∀ x ∈ kv2 :: tl2, wfStr x.1 ∧ wfScalar x.2 := fun x hx =>
        hwf x (by simp [hx])
      have hih := ih f htl hlen2 hwf2
      have hq := takeUntilQuote_append (strBytes kv.1)
        (58 :: (jsonScalar kv.2 ++ 44 :: (jsonPairsBody (kv2 :: tl2) ++ [125])))
        (strBytes_ne_quote kv.1 hkv.1)
      have hsc := parseScalarPre_jsonScalar kv.2
        (44 :: (jsonPairsBody (kv2 :: tl2) ++ [125])) hkv.2
        (by simp only [headDigit]; decide)
      simp only [jsonPairsBody, jsonPair, jsonStr, List.cons_append,
        List.append_assoc, List.singleton_append]
      simp [parsePairs, hq, hsc, hih, strOfBytes_strBytes]

theorem jsonScalar_head (v : Scalar) :
    ∃ h t, jsonScalar v = h :: t ∧ h < 123 := by
  cases v with
  | str s => exact ⟨34, _, rfl, by norm_num⟩
  | null => exact ⟨110, _, rfl, by norm_num⟩
  | bool b =>
    cases b with
    | false => exact ⟨102, _, rfl, by norm_num⟩
    | true => exact ⟨116, _, rfl, by norm_num⟩
  | int n =>
    by_cases hneg : n < 0
    · exact ⟨45, printNat n.natAbs,
        by simp [jsonScalar, printInt, if_pos hneg], by norm_num⟩
    · obtain ⟨hdig, -, hne⟩ := printNat_spec n.natAbs
      obtain ⟨d, tl, hcons⟩ : ∃ d tl, printNat n.natAbs = d :: tl := by
        cases hpn : printNat n.natAbs with
        | nil => exact absurd hpn hne
        | cons d tl => exact ⟨d, tl, rfl⟩
      have hd : isDigit d = true := hdig d (by simp [hcons])
      have hdb : 48 ≤ d ∧ d ≤ 57 := by
        simpa [isDigit, Bool.and_eq_true, decide_eq_true_eq] using hd
      exact ⟨d, tl, by simp [jsonScalar, printInt, if_neg hneg, hcons], by omega⟩

theorem jsonDecode_jsonScalar (v : Scalar) (hv : wfScalar v) :
    jsonDecode (jsonScalar v) = some (.scalar v) := by
  have hk := parseScalarPre_jsonScalar v [] hv (by decide)
  rw [List.append_nil] at hk
  obtain ⟨h, t, hcons, hlt⟩ := jsonScalar_head v
  rw [hcons] at hk ⊢
  have : h ≠ 123 := by omega
  simp [jsonDecode, this, hk]

theorem jsonPairsBody_ne_nil (kv : String × Scalar) (tl : List (String × Scalar)) :
    jsonPairsBody (kv :: tl) ≠ [] := by
  cases tl <;> simp [jsonPairsBody, jsonPair, jsonStr]

theorem length_le_jsonPairsBody :
    ∀ (m : List (String × Scalar)), m ≠ [] → m.length ≤ (jsonPairsBody m).length := by
  intro m
  induction m with
  | nil => intro h; exact absurd rfl h
  | cons kv tl ih =>
    intro _
    cases tl with
    | nil => simp [jsonPairsBody, jsonPair, jsonStr]
    | cons kv2 tl2 =>
      have := ih (by simp)
      simp only [jsonPairsBody, jsonPair, jsonStr] at this ⊢
      simp at this ⊢
      omega

theorem jsonDecode_jsonMap (m : List (String × Scalar))
    (hm : ∀ kv ∈ m, wfStr kv.1 ∧ wfScalar kv.2) :
    jsonDecode (jsonMap m) = some (.map m) := by
  cases m with
  | nil => decide
  | cons kv tl =>
    have hne := jsonPairsBody_ne_nil kv tl
    have hr : jsonPairsBody (kv :: tl) ++ [125] ≠ [125] := by
      intro hc
      have := congrArg List.length hc
      simp at this
      exact hne this
    have hlen : (kv :: tl).length ≤ (jsonPairsBody (kv :: tl)).length + 1 := by
      have := length_le_jsonPairsBody (kv :: tl) (by simp)
      omega
    have hpp := parsePairs_jsonPairsBody (kv :: tl)
      ((jsonPairsBody (kv :: tl)).length + 1) (by simp) hlen hm
    simp [jsonMap, jsonDecode, hr, hpp]

/-! ## Cross-codec separation facts -/

theorem jsonDecode_pickleEncode (v : Value) :
    jsonDecode (pickleEncode v) = none := by
  simp [pickleEncode, jsonDecode, parseScalarPre, List.isPrefixOf,
    parseDigitsPre, takeWhileDigits, isDigit]

theorem pickleDecode_of_head_ne :
    ∀ bs : Bytes, (∀ b ∈ bs, b ≠ 128) → pickleDecode bs = none := by
  intro bs h
  cases bs with
  | nil => rfl
  | cons b r => simp [pickleDecode, h b (by simp)]

theorem pickleDecode_strBytes (s : String) (hs : wfStr s) :
    pickleDecode (strBytes s) = none := by
  refine pickleDecode_of_head_ne _ fun b hb => ?_
  have := strBytes_lt_128 s hs b hb
  omega

theorem pickleDecode_jsonScalar (v : Scalar) :
    pickleDecode (jsonScalar v) = none := by
  obtain ⟨h, t, hcons, hlt⟩ := jsonScalar_head v
  rw [hcons]
  simp [pickleDecode]
  omega

theorem pickleDecode_jsonMap (m : List (String × Scalar)) :
    pickleDecode (jsonMap m) = none := by
  simp [jsonMap, pickleDecode]

theorem decodeUtf8_strBytes (s : String) (hs : wfStr s) :
    decodeUtf8? (strBytes s) = some s := by
  have hall : (strBytes s).all (fun b => decide (b < 128)) = true := by
    rw [List.all_eq_true]
    intro b hb
    simpa using strBytes_lt_128 s hs b hb
  simp only [decodeUtf8?]
  rw [if_pos hall]
  rw [strOfBytes_strBytes]

/-! ## Round-trip behavior of the pipeline, mode by mode -/

theorem roundTrip_pickle (v : Value) : RoundTrip v .pickle := by
  simp [RoundTrip, to_store, from_store, applySFunc, applyDFunc, Except.bind,
    pickleDecode_pickleEncode]

theorem roundTrip_raw_bytes (bs : Bytes) : RoundTrip (.bytes bs) .raw := by
  simp [RoundTrip, to_store, from_store, applySFunc, applyDFunc, Except.bind]

theorem to_store_json_bytes (bs : Bytes) :
    to_store (.bytes bs) .json = .error .encodeError := rfl

theorem roundTrip_json (v : Value) (hv : wfValue v) (hb : v.isBytes = false) :
    RoundTrip v .json := by
  cases v with
  | bytes bs => simp [Value.isBytes] at hb
  | scalar sv =>
    simp [RoundTrip, to_store, from_store, applySFunc, applyDFunc, Except.bind,
      jsonEncode, jsonDecode_jsonScalar sv hv]
  | map m =>
    simp [RoundTrip, to_store, from_store, applySFunc, applyDFunc, Except.bind,
      jsonEncode, jsonDecode_jsonMap m hv]

theorem roundTrip_auto_scalar (sv : Scalar) (hv : wfScalar sv)
    (hs : ∀ s, sv ≠ .str s) : RoundTrip (.scalar sv) .auto := by
  cases sv with
  | str s => exact absurd rfl (hs s)
  | int n =>
    simp [RoundTrip, to_store, from_store, applySFunc, applyDFunc, Except.bind,
      jsonEncode, jsonDecode_jsonScalar _ hv]
  | bool b =>
    simp [RoundTrip, to_store, from_store, applySFunc, applyDFunc, Except.bind,
      jsonEncode, jsonDecode_jsonScalar _ hv]
  | null =>
    simp [RoundTrip, to_store, from_store, applySFunc, applyDFunc, Except.bind,
      jsonEncode, jsonDecode_jsonScalar _ hv]

theorem roundTrip_auto_map (m : List (String × Scalar))
    (hm : ∀ kv ∈ m, wfStr kv.1 ∧ wfScalar kv.2) : RoundTrip (.map m) .auto := by
  simp [RoundTrip, to_store, from_store, applySFunc, applyDFunc, Except.bind,
    jsonEncode, jsonDecode_jsonMap m hm]

theorem roundTrip_auto_str (s : String) (hs : wfStr s)
    (hj : jsonDecode (strBytes s) = none) : RoundTrip (.scalar (.str s)) .auto := by
  simp [RoundTrip, to_store, from_store, applySFunc, applyDFunc, Except.bind, hj,
    pickleDecode_strBytes s hs, decodeUtf8_strBytes s hs]

/-- A successful round trip splits into a successful encode and decode. -/
theorem roundTrip_elim (v : Value) (mode : Mode) (h : RoundTrip v mode) :
    ∃ bs, to_store v mode = .ok bs ∧ from_store bs mode = .ok v := by
  unfold RoundTrip at h
  cases hts : to_store v mode with
  | ok bs =>
    refine ⟨bs, rfl, ?_⟩
    rw [hts] at h
    simpa [Except.bind] using h
  | error e => rw [hts] at h; simp [Except.bind] at h

/-! ## Claim C1 — serialization round trip -/

/-- C1 (counterexample): the claimed universal round trip fails on the code.
For the bytes value `b"hello"` under `auto` mode, `to_store` stores the raw
bytes, but `from_store` falls through JSON and pickle decoding to
`bytes.decode()` and returns the *text* `"hello"`, not the original bytes —
exactly what the repository's own test
(`test_serialize.py: from_store(to_store(b"hello")) == "hello"`) asserts. -/
theorem auto_mode_bytes_not_roundtrip :
    ¬ RoundTrip (.bytes (strBytes "hello")) .auto ∧
    (to_store (.bytes (strBytes "hello")) .auto).bind
        (fun bs => from_store bs .auto) =
      .ok (.scalar (.str "hello")) := by decide

/-- C1 (amended): the round trip `from_store (to_store v mode) mode = v`
holds (with no explicit functions and no typed model supplied)

* for `pickle` mode, for every value;
* for `raw` mode, for every bytes value;
* for `json` mode, for every text/number/bool/None/map value, while a bytes
  value is rejected at encode time with a serialization error;
* for `auto` mode, for every number/bool/None/map value, and for every text
  value whose encoding is not itself parseable as JSON; bytes values (and
  JSON-parseable text) come back as different values, as the counterexample
  shows. -/
theorem serialize_roundtrip_by_mode :
    (∀ v : Value, RoundTrip v .pickle) ∧
    (∀ bs : Bytes, RoundTrip (.bytes bs) .raw) ∧
    (∀ v : Value, wfValue v → v.isBytes = false → RoundTrip v .json) ∧
    (∀ bs : Bytes, to_store (.bytes bs) .json = .error .encodeError) ∧
    (∀ sv : Scalar, wfScalar sv → (∀ s, sv ≠ .str s) → RoundTrip (.scalar sv) .auto) ∧
    (∀ m : List (String × Scalar), (∀ kv ∈ m, wfStr kv.1 ∧ wfScalar kv.2) →
      RoundTrip (.map m) .auto) ∧
    (∀ s : String, wfStr s → jsonDecode (strBytes s) = none →
      RoundTrip (.scalar (.str s)) .auto) :=
  ⟨roundTrip_pickle, roundTrip_raw_bytes, roundTrip_json, to_store_json_bytes,
    roundTrip_auto_scalar, roundTrip_auto_map, roundTrip_auto_str⟩

/-- C1 (witness): the amended round trip evaluated at concrete values. -/
theorem serialize_roundtrip_by_mode_witness :
    RoundTrip (.map [("a", .int 1), ("b", .str "x"), ("n", .null)]) .json ∧
    RoundTrip (.scalar (.str "hello")) .auto ∧
    RoundTrip (.scalar (.int (-42))) .auto ∧
    RoundTrip (.bytes [0, 200, 34]) .pickle :=
  ⟨serialize_roundtrip_by_mode.2.2.1 _ (by decide) (by decide),
    serialize_roundtrip_by_mode.2.2.2.2.2.2 "hello" (by decide) (by decide),
    serialize_roundtrip_by_mode.2.2.2.2.1 (.int (-42)) (by decide)
      (fun s h => Scalar.noConfusion h),
    serialize_roundtrip_by_mode.1 _⟩

/-! ## Claim C9 — raw-mode precondition -/

/-- C9: under `raw` mode, `to_store` fails with the invalid-value error
(`ValueError("Value is not bytes")`) for every value that is not bytes after
the explicit serialization function (if any) has been applied, and returns
bytes values unchanged. -/
theorem raw_mode_precondition :
    (∀ (v : Value) (f : Option (Value → Value)),
      (applySFunc f v).isBytes = false → to_store v .raw f = .error .invalidValue) ∧
    (∀ (v : Value) (f : Option (Value → Value)) (bs : Bytes),
      applySFunc f v = .bytes bs → to_store v .raw f = .ok bs) := by
  constructor
  · intro v f h
    simp only [to_store]
    cases hv : applySFunc f v with
    | bytes bs => rw [hv] at h; simp [Value.isBytes] at h
    | scalar sv => rfl
    | map m => rfl
  · intro v f bs h
    simp only [to_store, h]

/-- C9 (witness): the precondition evaluated at a text and a bytes value,
with and without an explicit serialization function. -/
theorem raw_mode_precondition_witness :
    to_store (.scalar (.str "x")) .raw none = .error .invalidValue ∧
    to_store (.bytes [1, 2]) .raw none = .ok [1, 2] ∧
    to_store (.scalar .null) .raw (some (fun _ => .bytes [7])) = .ok [7] :=
  ⟨raw_mode_precondition.1 (.scalar (.str "x")) none (by decide),
    raw_mode_precondition.2 (.bytes [1, 2]) none [1, 2] (by decide),
    raw_mode_precondition.2 (.scalar .null) (some (fun _ => .bytes [7])) [7] rfl⟩

/-! ## Association-list facts -/

theorem alist.get?_del_self {α : Type} (l : List (String × α)) (k : String) :
    alist.get? (alist.del l k) k = none := by
  induction l with
  | nil => rfl
  | cons kv tl ih =>
    by_cases hk : kv.1 = k
    · simpa [alist.del, hk] using ih
    · simp [alist.del, alist.get?, hk, ih]

theorem alist.get?_del_ne {α : Type} (l : List (String × α)) (k k' : String)
    (h : k' ≠ k) : alist.get? (alist.del l k) k' = alist.get? l k' := by
  induction l with
  | nil => rfl
  | cons kv tl ih =>
    by_cases hk : kv.1 = k
    · have : kv.1 ≠ k' := by rw [hk]; exact fun hc => h hc.symm
      simp [alist.del, alist.get?, hk, this, Ne.symm h, ih]
    · by_cases hk' : kv.1 = k'
      · simp [alist.del, alist.get?, hk, hk', h]
      · simp [alist.del, alist.get?, hk, hk', ih]

theorem alist.get?_set_self {α : Type} (l : List (String × α)) (k : String) (v : α) :
    alist.get? (alist.set l k v) k = some v := by
  simp [alist.get?, alist.set]

theorem alist.get?_set_ne {α : Type} (l : List (String × α)) (k k' : String) (v : α)
    (h : k' ≠ k) : alist.get? (alist.set l k v) k' = alist.get? l k' := by
  simp only [alist.get?, alist.set]
  rw [if_neg (fun hc => h hc.symm)]
  exact alist.get?_del_ne l k k' h

theorem alist.get?_del_none {α : Type} (l : List (String × α)) (k k' : String)
    (h : alist.get? l k' = none) : alist.get? (alist.del l k) k' = none := by
  by_cases hk : k' = k
  · subst hk; exact alist.get?_del_self l k'
  · rw [alist.get?_del_ne l k k' hk]; exact h

/-! ## Missing keys on the memory backend -/

theorem memCheckTtl_store_none (now : Nat) (key : String) (st : MemoryState)
    (h : alist.get? st.store key = none) :
    alist.get? (memCheckTtl now key st).store key = none := by
  unfold memCheckTtl
  cases alist.get? st.ttl key with
  | none => exact h
  | some e =>
    by_cases he : now > e
    · simp only [if_pos he, memDelete]
      exact alist.get?_del_none st.store key key h
    · simp only [if_neg he]; exact h

theorem memCheckTtl_ttl_eq (now : Nat) (key : String) (st : MemoryState) :
    (memCheckTtl now key st).ttl = st.ttl := by
  unfold memCheckTtl
  cases alist.get? st.ttl key with
  | none => rfl
  | some e =>
    by_cases he : now > e
    · simp [if_pos he, memDelete]
    · simp [if_neg he]

/-! ## Claim C3 — missing-key policy -/

/-- C3: for every key `k` never written to a store, `get(k)` raises
`DoesNotExist` when `raise_on_nonexist` is true, returns the `None` sentinel
when it is false, and `exists(k)` is false — on the memory, sql, redis-like
and zip backends. -/
theorem missing_key_policy :
    (∀ (now : Nat) (k : String) (st : MemoryState),
      alist.get? st.store (getKey memPfx k) = none →
      (memGet {} now k (some true) st).1 = .error .doesNotExist ∧
      (memGet {} now k (some false) st).1 = .ok none ∧
      (memExists now k st).1 = false) ∧
    (∀ (now : Nat) (k : String) (st : SqlState),
      alist.get? st.table (getKey sqlPfx k) = none →
      (sqlGet {} now k (some true) st).1 = .error .doesNotExist ∧
      (sqlGet {} now k (some false) st).1 = .ok none ∧
      sqlExists k st = false) ∧
    (∀ (now : Nat) (k : String) (st : RedisState),
      alist.get? st.data (getKey redisPfx k) = none →
      redisGet {} now k (some true) st = .error .doesNotExist ∧
      redisGet {} now k (some false) st = .ok none ∧
      redisExists now k st = false) ∧
    (∀ (k : String) (st : ZipState),
      alist.get? st.entries (getKey zipPfx k) = none →
      zipGet {} k (some true) st = .error .doesNotExist ∧
      zipGet {} k (some false) st = .ok none ∧
      zipExists k st = false) := by
  refine ⟨?_, ?_, ?_, ?_⟩
  · intro now k st h
    have h1 := memCheckTtl_store_none now (getKey memPfx k) st h
    have h2 := memCheckTtl_store_none now (getKey memPfx k) _ h1
    refine ⟨?_, ?_, ?_⟩
    · simp [memGet, memRead, memExistsRaw, h1, h2]
    · simp [memGet, memRead, memExistsRaw, h1, h2, fromStoreOpt]
    · simp [memExists, memExistsRaw, h1]
  · intro now k st h
    refine ⟨?_, ?_, ?_⟩
    · simp [sqlGet, sqlRead, h]
    · simp [sqlGet, sqlRead, h, fromStoreOpt]
    · simp [sqlExists, sqlExistsRaw, h]
  · intro now k st h
    refine ⟨?_, ?_, ?_⟩
    · simp [redisGet, redisRead, redisExistsRaw, h]
    · simp [redisGet, redisRead, redisExistsRaw, h, fromStoreOpt]
    · simp [redisExists, redisExistsRaw, h]
  · intro k st h
    refine ⟨?_, ?_, ?_⟩
    · simp [zipGet, zipRead, h]
    · simp [zipGet, zipRead, h, fromStoreOpt]
    · simp [zipExists, zipExistsRaw, h]

/-- C3 (witness): the policy evaluated on concrete empty stores. -/
theorem missing_key_policy_witness :
    (memGet {} 0 "k" (some true) {}).1 = .error .doesNotExist ∧
    (sqlGet {} 0 "k" (some false) {}).1 = .ok none ∧
    redisGet {} 0 "k" (some true) {} = .error .doesNotExist ∧
    zipExists "k" {} = false :=
  ⟨(missing_key_policy.1 0 "k" {} (by decide)).1,
    (missing_key_policy.2.1 0 "k" {} (by decide)).2.1,
    (missing_key_policy.2.2.1 0 "k" {} (by decide)).1,
    (missing_key_policy.2.2.2 "k" {} (by decide)).2.2⟩

/-! ## Claim C2 — idempotent overwrite -/

theorem to_store_auto_ok (v : Value) : ∃ bs, to_store v .auto = .ok bs := by
  cases v with
  | bytes bs => exact ⟨bs, rfl⟩
  | scalar sv =>
    cases sv with
    | str s => exact ⟨strBytes s, rfl⟩
    | int n => exact ⟨jsonScalar (.int n), rfl⟩
    | bool b => exact ⟨jsonScalar (.bool b), rfl⟩
    | null => exact ⟨jsonScalar .null, rfl⟩
  | map m => exact ⟨jsonMap m, rfl⟩

theorem memCheckTtl_of_ttlOk (now : Nat) (key : String) (st : MemoryState)
    (h : ttlOk now key st) : memCheckTtl now key st = st := by
  unfold ttlOk at h
  unfold memCheckTtl
  cases hl : alist.get? st.ttl key with
  | none => rfl
  | some e =>
    rw [hl] at h
    have h' : now ≤ e := h
    show (if now > e then memDelete key st else st) = st
    rw [if_neg (by omega)]

/-- C2: on every overwriting backend (memory, sql, redis-like), after
`put(k, v1); put(k, v2)` a `get(k)` returns `v2`; on the append-only zip
backend the second `put` on the now-existing key raises `ReadOnlyError`
instead.  (`RoundTrip v2 .auto` makes the store's default serialization
faithful for `v2`; for the memory backend the key must not carry an expired
TTL record from before, compare C10.) -/
theorem overwrite_semantics :
    (∀ (k : String) (v1 v2 : Value) (st : MemoryState) (now : Nat),
      RoundTrip v2 .auto → ttlOk now (getKey memPfx k) st →
      ∃ st1 st2, memPut {} now k v1 none st = .ok st1 ∧
        memPut {} now k v2 none st1 = .ok st2 ∧
        (memGet {} now k none st2).1 = .ok (some v2)) ∧
    (∀ (k : String) (v1 v2 : Value) (st : SqlState) (now : Nat),
      RoundTrip v2 .auto →
      ∃ st1 st2, sqlPut {} now k v1 none st = .ok st1 ∧
        sqlPut {} now k v2 none st1 = .ok st2 ∧
        (sqlGet {} now k none st2).1 = .ok (some v2)) ∧
    (∀ (k : String) (v1 v2 : Value) (st : RedisState) (now : Nat),
      RoundTrip v2 .auto →
      ∃ st1 st2, redisPut {} now k v1 none st = .ok st1 ∧
        redisPut {} now k v2 none st1 = .ok st2 ∧
        redisGet {} now k none st2 = .ok (some v2)) ∧
    (∀ (k : String) (v1 v2 : Value) (st : ZipState),
      zipExists k st = false →
      ∃ st1, zipPut {} k v1 st = .ok st1 ∧
        zipPut {} k v2 st1 = .error .readOnly) := by
  refine ⟨?_, ?_, ?_, ?_⟩
  · intro k v1 v2 st now hrt httl
    obtain ⟨bs1, hbs1⟩ := to_store_auto_ok v1
    obtain ⟨bs2, hbs2, hfs2⟩ := roundTrip_elim v2 .auto hrt
    refine ⟨memWrite now (getKey memPfx k) bs1 none st,
      memWrite now (getKey memPfx k) bs2 none
        (memWrite now (getKey memPfx k) bs1 none st), ?_, ?_, ?_⟩
    · simp [memPut, hbs1, effTtl]
    · simp [memPut, hbs2, effTtl]
    · have httl2 : ttlOk now (getKey memPfx k)
          ⟨alist.set (alist.set st.store (getKey memPfx k) bs1)
            (getKey memPfx k) bs2, st.ttl⟩ := by
        simpa [ttlOk] using httl
      have hchk := memCheckTtl_of_ttlOk now (getKey memPfx k) _ httl2
      simp [memGet, memRead, memExistsRaw, memWrite, hchk,
        alist.get?_set_self, fromStoreOpt, hfs2, Except.map]
  · intro k v1 v2 st now hrt
    obtain ⟨bs1, hbs1⟩ := to_store_auto_ok v1
    obtain ⟨bs2, hbs2, hfs2⟩ := roundTrip_elim v2 .auto hrt
    refine ⟨sqlWrite now (getKey sqlPfx k) bs1 none st,
      sqlWrite now (getKey sqlPfx k) bs2 none
        (sqlWrite now (getKey sqlPfx k) bs1 none st), ?_, ?_, ?_⟩
    · simp [sqlPut, hbs1, effTtl]
    · simp [sqlPut, hbs2, effTtl]
    · simp only [sqlGet, sqlRead, sqlWrite, alist.get?_set_self]
      cases alist.get? st.table (getKey sqlPfx k) with
      | none =>
        simp [alist.get?_set_self, sqlExpired, fromStoreOpt, hfs2, Except.map]
      | some row =>
        simp [alist.get?_set_self, sqlExpired, fromStoreOpt, hfs2, Except.map]
  · intro k v1 v2 st now hrt
    obtain ⟨bs1, hbs1⟩ := to_store_auto_ok v1
    obtain ⟨bs2, hbs2, hfs2⟩ := roundTrip_elim v2 .auto hrt
    refine ⟨redisWrite now (getKey redisPfx k) bs1 none st,
      redisWrite now (getKey redisPfx k) bs2 none
        (redisWrite now (getKey redisPfx k) bs1 none st), ?_, ?_, ?_⟩
    · simp [redisPut, hbs1, effTtl]
    · simp [redisPut, hbs2, effTtl]
    · simp [redisGet, redisRead, redisWrite, redisExistsRaw, redisLive,
        alist.get?_set_self, fromStoreOpt, hfs2, Except.map]
  · intro k v1 v2 st hex
    obtain ⟨bs1, hbs1⟩ := to_store_auto_ok v1
    obtain ⟨bs2, hbs2⟩ := to_store_auto_ok v2
    have hexraw : zipExistsRaw (getKey zipPfx k) st = false := by
      simpa [zipExists] using hex
    refine ⟨⟨alist.set st.entries (getKey zipPfx k) bs1⟩, ?_, ?_⟩
    · simp [zipPut, hbs1, zipWrite, hexraw]
    · simp [zipPut, hbs2, zipWrite, zipExistsRaw, alist.get?_set_self]

/-- C2 (witness): the overwrite sequence evaluated on concrete stores. -/
theorem overwrite_semantics_witness :
    (∃ st1 st2, memPut {} 5 "k" (.scalar (.int 1)) none {} = .ok st1 ∧
      memPut {} 5 "k" (.scalar (.int 2)) none st1 = .ok st2 ∧
      (memGet {} 5 "k" none st2).1 = .ok (some (.scalar (.int 2)))) ∧
    (∃ st1 st2, sqlPut {} 5 "k" (.scalar (.str "a")) none {} = .ok st1 ∧
      sqlPut {} 5 "k" (.scalar (.str "b")) none st1 = .ok st2 ∧
      (sqlGet {} 5 "k" none st2).1 = .ok (some (.scalar (.str "b")))) ∧
    (∃ st1, zipPut {} "k" (.scalar (.int 1)) {} = .ok st1 ∧
      zipPut {} "k" (.scalar (.int 2)) st1 = .error .readOnly) :=
  ⟨overwrite_semantics.1 "k" _ _ {} 5 (by decide) (by decide),
    overwrite_semantics.2.1 "k" _ _ {} 5 (by decide),
    overwrite_semantics.2.2.2 "k" (.scalar (.int 1)) (.scalar (.int 2)) {}
      (by decide)⟩

/-! ## Claim C5 — lazy TTL expiry -/

/-- C5 (counterexample): on the relational backend, a `put(k, v, ttl=50)` at
time 100 onto a key whose row already exists (inserted at time 0) keeps the
row's original `timestamp` — `SqlStore._write` falls back to
`UPDATE value, ttl` and the `timestamp` column takes its server default only
on insert — so `get(k)` at time 101, well before the 50-second TTL counted
from the `put` has elapsed, already evicts the row and returns `None`. -/
theorem sql_ttl_counted_from_insert :
    (sqlPut {} 100 "k" (.scalar (.int 7)) (some 50)
        ⟨[("k", ⟨[48], 0, none⟩)]⟩).map
      (fun st1 => (sqlGet {} 101 "k" (some false) st1).1) =
    .ok (.ok none) ∧ (101 : Nat) < 100 + 50 := by decide

/-- C5 (amended): after `put(k, v, ttl)` with a nonzero TTL at time `now`,
`get(k)` returns `v` at any time before `now + ttl` and
`get(k, raise_on_nonexist=False)` returns `None` at any time after
`now + ttl`, with expiry checked lazily on access — unconditionally for the
in-memory and redis-like backends, and for the relational backend provided
the key's row did not already exist (an existing row keeps its original
insert timestamp, from which the TTL is then measured, as the counterexample
shows). -/
theorem ttl_lazy_expiry :
    (∀ (k : String) (v : Value) (st : MemoryState) (now ttl t1 t2 : Nat),
      RoundTrip v .auto → ttl ≠ 0 → t1 < now + ttl → now + ttl < t2 →
      ∃ st1, memPut {} now k v (some ttl) st = .ok st1 ∧
        (memGet {} t1 k none st1).1 = .ok (some v) ∧
        (memGet {} t2 k (some false) st1).1 = .ok none) ∧
    (∀ (k : String) (v : Value) (st : SqlState) (now ttl t1 t2 : Nat),
      RoundTrip v .auto → ttl ≠ 0 → t1 < now + ttl → now + ttl < t2 →
      alist.get? st.table (getKey sqlPfx k) = none →
      ∃ st1, sqlPut {} now k v (some ttl) st = .ok st1 ∧
        (sqlGet {} t1 k none st1).1 = .ok (some v) ∧
        (sqlGet {} t2 k (some false) st1).1 = .ok none) ∧
    (∀ (k : String) (v : Value) (st : RedisState) (now ttl t1 t2 : Nat),
      RoundTrip v .auto → ttl ≠ 0 → t1 < now + ttl → now + ttl < t2 →
      ∃ st1, redisPut {} now k v (some ttl) st = .ok st1 ∧
        redisGet {} t1 k none st1 = .ok (some v) ∧
        redisGet {} t2 k (some false) st1 = .ok none) := by
  refine ⟨?_, ?_, ?_⟩
  · intro k v st now ttl t1 t2 hrt h0 h1 h2
    obtain ⟨bs, hbs, hfs⟩ := roundTrip_elim v .auto hrt
    have hett : effTtl {} (some ttl) = some ttl := by simp [effTtl, h0]
    refine ⟨memWrite now (getKey memPfx k) bs (some ttl) st, ?_, ?_, ?_⟩
    · simp [memPut, hbs, hett]
    · have hlive : ¬ t1 > now + ttl := by omega
      simp [memGet, memRead, memExistsRaw, memCheckTtl, memWrite, h0,
        alist.get?_set_self, hlive, fromStoreOpt, hfs, Except.map]
    · have hdead : t2 > now + ttl := by omega
      simp [memGet, memRead, memExistsRaw, memCheckTtl, memWrite, memDelete, h0,
        alist.get?_set_self, alist.get?_del_self, hdead, fromStoreOpt]
  · intro k v st now ttl t1 t2 hrt h0 h1 h2 hfresh
    obtain ⟨bs, hbs, hfs⟩ := roundTrip_elim v .auto hrt
    have hett : effTtl {} (some ttl) = some ttl := by simp [effTtl, h0]
    refine ⟨⟨alist.set st.table (getKey sqlPfx k) ⟨bs, now, some ttl⟩⟩, ?_, ?_, ?_⟩
    · simp [sqlPut, hbs, hett, sqlWrite, hfresh]
    · have hlive : ¬ now + ttl < t1 := by omega
      simp [sqlGet, sqlRead, alist.get?_set_self, sqlExpired, h0, hlive,
        fromStoreOpt, hfs, Except.map]
    · have hdead : now + ttl < t2 := by omega
      simp [sqlGet, sqlRead, alist.get?_set_self, sqlExpired, h0, hdead,
        fromStoreOpt]
  · intro k v st now ttl t1 t2 hrt h0 h1 h2
    obtain ⟨bs, hbs, hfs⟩ := roundTrip_elim v .auto hrt
    have hett : effTtl {} (some ttl) = some ttl := by simp [effTtl, h0]
    refine ⟨redisWrite now (getKey redisPfx k) bs (some ttl) st, ?_, ?_, ?_⟩
    · simp [redisPut, hbs, hett]
    · simp [redisGet, redisRead, redisWrite, redisExistsRaw, redisLive,
        alist.get?_set_self, h1, fromStoreOpt, hfs, Except.map]
    · have hdead : ¬ t2 < now + ttl := by omega
      simp [redisGet, redisRead, redisWrite, redisExistsRaw, redisLive,
        alist.get?_set_self, hdead, fromStoreOpt]

/-- C5 (witness): the amended expiry behavior evaluated on concrete stores
(`put` at time 0 with `ttl = 1`, reads at times 0 and 2). -/
theorem ttl_lazy_expiry_witness :
    (∃ st1, memPut {} 0 "k" (.scalar (.int 1)) (some 1) {} = .ok st1 ∧
      (memGet {} 0 "k" none st1).1 = .ok (some (.scalar (.int 1))) ∧
      (memGet {} 2 "k" (some false) st1).1 = .ok none) ∧
    (∃ st1, sqlPut {} 0 "k" (.scalar (.int 1)) (some 1) {} = .ok st1 ∧
      (sqlGet {} 0 "k" none st1).1 = .ok (some (.scalar (.int 1))) ∧
      (sqlGet {} 2 "k" (some false) st1).1 = .ok none) ∧
    (∃ st1, redisPut {} 0 "k" (.scalar (.int 1)) (some 1) {} = .ok st1 ∧
      redisGet {} 0 "k" none st1 = .ok (some (.scalar (.int 1))) ∧
      redisGet {} 2 "k" (some false) st1 = .ok none) :=
  ⟨ttl_lazy_expiry.1 "k" _ {} 0 1 0 2 (by decide) (by decide) (by decide) (by decide),
    ttl_lazy_expiry.2.1 "k" _ {} 0 1 0 2 (by decide) (by decide) (by decide)
      (by decide) (by decide),
    ttl_lazy_expiry.2.2 "k" _ {} 0 1 0 2 (by decide) (by decide) (by decide)
      (by decide)⟩

/-! ## Claim C10 — delete leaves the expiry record behind -/

/-- C10: in the memory backend, `delete` pops only the backing dict and not
the expiry dict, so after `put(k, v1, ttl)`, `delete(k)`, and a re-`put` of
`v2` without a TTL, the original expiry instant still applies: any access
after it evicts the fresh value, and `get(k, raise_on_nonexist=False)`
returns `None`. -/
theorem mem_delete_keeps_expiry :
    ∀ (k : String) (v1 v2 : Value) (st : MemoryState) (t0 t1 t2 ttl : Nat),
      ttl ≠ 0 → t0 + ttl < t2 →
      ∃ st1 st2 st3,
        memPut {} t0 k v1 (some ttl) st = .ok st1 ∧
        memDeleteOp {} k st1 = .ok st2 ∧
        memPut {} t1 k v2 none st2 = .ok st3 ∧
        (memGet {} t2 k (some false) st3).1 = .ok none ∧
        (memExists t2 k st3).1 = false := by
  intro k v1 v2 st t0 t1 t2 ttl h0 h2
  obtain ⟨bs1, hbs1⟩ := to_store_auto_ok v1
  obtain ⟨bs2, hbs2⟩ := to_store_auto_ok v2
  have hett : effTtl {} (some ttl) = some ttl := by simp [effTtl, h0]
  refine ⟨memWrite t0 (getKey memPfx k) bs1 (some ttl) st,
    memDelete (getKey memPfx k) (memWrite t0 (getKey memPfx k) bs1 (some ttl) st),
    memWrite t1 (getKey memPfx k) bs2 none
      (memDelete (getKey memPfx k) (memWrite t0 (getKey memPfx k) bs1 (some ttl) st)),
    by simp [memPut, hbs1, hett], by simp [memDeleteOp],
    by simp [memPut, hbs2, effTtl], ?_, ?_⟩
  · have hdead : t2 > t0 + ttl := by omega
    simp [memGet, memRead, memExistsRaw, memCheckTtl, memWrite, memDelete,
      memDeleteOp, h0, alist.get?_set_self, alist.get?_del_self, hdead,
      fromStoreOpt]
  · have hdead : t2 > t0 + ttl := by omega
    simp [memExists, memExistsRaw, memCheckTtl, memWrite, memDelete,
      memDeleteOp, h0, alist.get?_set_self, alist.get?_del_self, hdead]

/-- C10 (witness): the scenario evaluated on a concrete store. -/
theorem mem_delete_keeps_expiry_witness :
    ∃ st1 st2 st3,
      memPut {} 0 "k" (.scalar (.int 1)) (some 1) {} = .ok st1 ∧
      memDeleteOp {} "k" st1 = .ok st2 ∧
      memPut {} 1 "k" (.scalar (.int 2)) none st2 = .ok st3 ∧
      (memGet {} 2 "k" (some false) st3).1 = .ok none ∧
      (memExists 2 "k" st3).1 = false :=
  mem_delete_keeps_expiry "k" _ _ {} 0 1 2 1 (by decide) (by decide)

/-! ## Claim C4 — key-iteration criteria on the memory backend -/

/-- C4 (code divergence): `BaseStore.iterate_keys` dispatches
`self._iterate_keys(prefix, exclude_prefix, glob)` with three positional
arguments, but `MemoryStore._iterate_keys(self, prefix=None)` accepts only
the `prefix` criterion, so on the memory backend every `iterate_keys` call —
with or without criteria — raises `TypeError` instead of yielding the
composed result that the other backends produce and that the repository's
own generic store test expects of the memory store. -/
theorem mem_iterate_keys_type_error :
    ∀ (st : MemoryState) (pfx? ex? glob? : Option String),
      memIterateKeys st pfx? ex? glob? = .error .typeError :=
  fun _ _ _ _ => rfl

/-! ## Claim C8 — sub-path derivation -/

/-- C8 (code divergence): `MemoryStore.__truediv__` raises
`NotImplementedError` for every path — including the plain `"child-path"`
that the repository's own generic store test derives from the memory
store — while the spec-modelled generic derivation extends the key prefix
and rejects upward traversal (`..`). -/
theorem mem_truediv_not_implemented :
    (∀ (st : MemoryState) (p : String),
      memTruediv st p = .error .notImplemented) ∧
    (∀ pfx p : String, hasUpward p = false →
      subStorePfx pfx p = .ok (getKey pfx p)) ∧
    (∀ pfx p : String, hasUpward p = true →
      subStorePfx pfx p = .error .invalidValue) :=
  ⟨fun _ _ => rfl,
    fun _ p h => by simp [subStorePfx, h],
    fun _ p h => by simp [subStorePfx, h]⟩

/-- C8 (witness): the derivation evaluated at the test's concrete path and
at an upward-traversing path. -/
theorem mem_truediv_not_implemented_witness :
    memTruediv {} "child-path" = .error .notImplemented ∧
    subStorePfx "anystore" "child-path" = .ok "anystore/child-path" ∧
    subStorePfx "anystore" "../up" = .error .invalidValue :=
  ⟨mem_truediv_not_implemented.1 {} "child-path",
    by
      have h := mem_truediv_not_implemented.2.1 "anystore" "child-path" (by decide)
      simpa [getKey] using h,
    mem_truediv_not_implemented.2.2 "anystore" "../up" (by decide)⟩

/-! ## Claim C6 — mirror completeness -/

theorem KV.exists_write (tgt : KV) (k k' : String) (bs : Bytes) :
    (tgt.write k bs).exists k' = (decide (k' = k) || tgt.exists k') := by
  by_cases h : k' = k
  · simp [KV.write, KV.exists, h, alist.get?_set_self]
  · simp [KV.write, KV.exists, h, alist.get?_set_ne _ _ _ _ h]

theorem KV.exists_iff_mem_keys (s : KV) (k : String) :
    s.exists k = true ↔ k ∈ s.keys := by
  unfold KV.exists KV.keys
  induction s.entries with
  | nil => simp [alist.get?]
  | cons kv tl ih =>
    by_cases h : kv.1 = k
    · simp [alist.get?, h]
    · simp [alist.get?, h, ih, Ne.symm h]

theorem KV.read_isSome_of_mem_keys (s : KV) (k : String) (h : k ∈ s.keys) :
    (s.read k).isSome = true := by
  have := (KV.exists_iff_mem_keys s k).mpr h
  simpa [KV.exists, KV.read] using this

theorem mirror_fold_skip :
    ∀ (ks : List String) (src tgt : KV) (m s : Nat),
      (∀ k ∈ ks, tgt.exists k = true) →
      ks.foldl (mirrorStep false src) (tgt, m, s) = (tgt, m, s + ks.length) := by
  intro ks
  induction ks with
  | nil => intro src tgt m s _; simp
  | cons k tl ih =>
    intro src tgt m s h
    have hk := h k (by simp)
    have htl : ∀ x ∈ tl, tgt.exists x = true := fun x hx => h x (by simp [hx])
    simp only [List.foldl_cons, mirrorStep, hk]
    rw [if_pos (by simp [hk])]
    rw [ih src tgt m (s + 1) htl]
    simp [Nat.add_assoc, Nat.add_comm 1 tl.length]

theorem mirror_fold_fresh :
    ∀ (ks : List String) (src tgt : KV) (m s : Nat),
      ks.Nodup → (∀ k ∈ ks, (src.read k).isSome = true) →
      (∀ k ∈ ks, tgt.exists k = false) →
      ∃ tgt',
        ks.foldl (mirrorStep false src) (tgt, m, s) = (tgt', m + ks.length, s) ∧
        (∀ k', tgt'.exists k' = (tgt.exists k' || ks.contains k')) := by
  intro ks
  induction ks with
  | nil =>
    intro src tgt m s _ _ _
    exact ⟨tgt, by simp, by simp [List.contains]⟩
  | cons k tl ih =>
    intro src tgt m s hnd hread hfresh
    obtain ⟨bs, hbs⟩ : ∃ bs, src.read k = some bs := by
      have := hread k (by simp)
      cases h : src.read k with
      | none => rw [h] at this; simp at this
      | some bs => exact ⟨bs, rfl⟩
    have hk := hfresh k (by simp)
    have hnd' := (List.nodup_cons.mp hnd)
    have hfresh' : ∀ x ∈ tl, (tgt.write k bs).exists x = false := by
      intro x hx
      rw [KV.exists_write]
      have hxk : x ≠ k := fun hc => hnd'.1 (hc ▸ hx)
      simp [hxk, hfresh x (by simp [hx])]
    obtain ⟨tgt', hfold, hmem⟩ := ih src (tgt.write k bs) (m + 1) s hnd'.2
      (fun x hx => hread x (by simp [hx])) hfresh'
    refine ⟨tgt', ?_, ?_⟩
    · simp only [List.foldl_cons, mirrorStep, hk]
      rw [if_neg (by simp [hk])]
      rw [hbs, hfold]
      simp [Nat.add_assoc, Nat.add_comm 1 tl.length]
    · intro k'
      rw [hmem k', KV.exists_write]
      by_cases h : k' = k
      · simp [h, List.contains_cons]
      · simp [h, List.contains_cons]

/-- C6: mirroring a source with `N` distinct keys into an empty target
yields `mirrored = N`, `skipped = 0`, and a target with exactly the source's
key set; mirroring again with `overwrite = False` yields `mirrored = 0` and
`skipped = N` and leaves the target unchanged. -/
theorem mirror_completeness :
    ∀ (src : KV), src.keys.Nodup →
      ∃ tgt1,
        mirrorRun false src ⟨[]⟩ = (tgt1, src.keys.length, 0) ∧
        (∀ k, k ∈ tgt1.keys ↔ k ∈ src.keys) ∧
        mirrorRun false src tgt1 = (tgt1, 0, src.keys.length) := by
  intro src hnd
  obtain ⟨tgt1, hfold, hmem⟩ := mirror_fold_fresh src.keys src ⟨[]⟩ 0 0 hnd
    (fun k hk => KV.read_isSome_of_mem_keys src k hk)
    (fun k _ => by simp [KV.exists, alist.get?])
  have hmem' : ∀ k, k ∈ tgt1.keys ↔ k ∈ src.keys := by
    intro k
    rw [← KV.exists_iff_mem_keys]
    rw [hmem k]
    simp [KV.exists, alist.get?]
  refine ⟨tgt1, by simpa [mirrorRun] using hfold, hmem', ?_⟩
  have hall : ∀ k ∈ src.keys, tgt1.exists k = true := by
    intro k hk
    exact (KV.exists_iff_mem_keys tgt1 k).mpr ((hmem' k).mpr hk)
  have := mirror_fold_skip src.keys src tgt1 0 0 hall
  simpa [mirrorRun] using this

/-- C6 (witness): the mirror pass evaluated on a concrete two-key source. -/
theorem mirror_completeness_witness :
    ∃ tgt1,
      mirrorRun false ⟨[("a", [1]), ("b", [2])]⟩ ⟨[]⟩ = (tgt1, 2, 0) ∧
      (∀ k, k ∈ tgt1.keys ↔ k ∈ (⟨[("a", [1]), ("b", [2])]⟩ : KV).keys) ∧
      mirrorRun false ⟨[("a", [1]), ("b", [2])]⟩ tgt1 = (tgt1, 0, 2) :=
  mirror_completeness ⟨[("a", [1]), ("b", [2])]⟩ (by decide)

/-! ## Claim C7 — worker-pool counter invariant and error isolation -/

theorem countP_set {α : Type} (l : List α) (i : Nat) (a b : α) (p : α → Bool)
    (h : l.get? i = some a) :
    (l.set i b).countP p + (if p a then 1 else 0) =
      l.countP p + (if p b then 1 else 0) := by
  induction l generalizing i with
  | nil => simp at h
  | cons x xs ih =>
    cases i with
    | zero =>
      simp only [List.get?] at h
      injection h with h
      subst h
      simp only [List.set, List.countP_cons]
      omega
    | succ n =>
      simp only [List.get?] at h
      simp only [List.set, List.countP_cons]
      have := ih n h
      omega

theorem winv_step {s s' : WState} {N C : Nat} (hstep : WStep true s s')
    (hinv : WInv N C s) : WInv N C s' := by
  obtain ⟨h1, h2, h3, h4, h5, h6, h7, h8⟩ := hinv
  cases hstep with
  | prodCount t rest hp hm =>
    refine ⟨?_, ?_, h3, ?_, h5, ?_, h7, h8⟩
    · simp only [hp, hm] at h1
      simp [midCount] at h1 ⊢
      omega
    · simp only [hm] at h2
      simp [midCount] at h2 ⊢
      omega
    · intro hps
      have := (h4 hps).1
      rw [hp] at this
      simp at this
    · intro hx
      have := (h6 hx).1
      rw [hp] at this
      simp at this
  | prodPush t hm =>
    refine ⟨?_, ?_, ?_, ?_, h5, ?_, h7, h8⟩
    · simp only [hm] at h1
      simp [midCount, queueTasks, List.countP_append, List.countP_cons,
        isTaskItem] at h1 ⊢
      omega
    · simp only [hm] at h2
      simp [midCount, queueTasks, List.countP_append, List.countP_cons,
        isTaskItem] at h2 ⊢
      omega
    · intro hmem
      rcases List.mem_append.mp hmem with hmem | hmem
      · exact h3 hmem
      · simp at hmem
    · intro hps
      have := (h4 hps).2
      rw [hm] at this
      simp at this
    · intro hx
      have := (h6 hx).2
      rw [hm] at this
      simp at this
  | prodSentinel hp hm hs =>
    refine ⟨?_, ?_, fun _ => rfl, fun _ => ⟨hp, hm⟩, fun _ => rfl, ?_, h7, h8⟩
    · simp [queueTasks, List.countP_append, List.countP_cons, isTaskItem] at h1 ⊢
      omega
    · simp [queueTasks, List.countP_append, List.countP_cons, isTaskItem] at h2 ⊢
      omega
    · intro hx
      obtain ⟨e1, e2, e3, e4⟩ := h6 hx
      refine ⟨e1, e2, ?_, e4⟩
      simpa [queueTasks, List.countP_append, List.countP_cons, isTaskItem]
        using e3
  | consPop i t q hc hq =>
    have hmem := List.get?_mem hc
    have hH := countP_set s.consumers i _ (CPC.handled t) isHandled hc
    have hC := countP_set s.consumers i _ (CPC.handled t) isCounted hc
    simp [isHandled, isCounted] at hH hC
    refine ⟨?_, ?_, ?_, h4, ?_, ?_, h7, ?_⟩
    · rw [hq] at h1
      simp [queueTasks, List.countP_cons, isTaskItem] at h1 ⊢
      omega
    · rw [hq] at h2
      simp [queueTasks, List.countP_cons, isTaskItem] at h2 ⊢
      omega
    · intro hmem'
      exact h3 (by rw [hq]; exact List.mem_cons_of_mem _ hmem')
    · intro hx
      rcases List.mem_or_eq_of_mem_set hx with hx | hx
      · exact h5 hx
      · cases hx
    · intro hx
      rcases List.mem_or_eq_of_mem_set hx with hx | hx
      · have := (h6 hx).2.2.1
        rw [hq] at this
        simp [queueTasks, List.countP_cons, isTaskItem] at this
      · cases hx
    · simp [List.length_set, h8]
  | consDec i t hc =>
    have hmem := List.get?_mem hc
    have hH := countP_set s.consumers i _ (CPC.counted t) isHandled hc
    have hC := countP_set s.consumers i _ (CPC.counted t) isCounted hc
    simp [isHandled, isCounted] at hH hC
    refine ⟨?_, ?_, h3, h4, ?_, ?_, h7, ?_⟩
    · simp at h1 ⊢
      omega
    · simp at h2 ⊢
      omega
    · intro hx
      rcases List.mem_or_eq_of_mem_set hx with hx | hx
      · exact h5 hx
      · cases hx
    · intro hx
      rcases List.mem_or_eq_of_mem_set hx with hx | hx
      · have h0 := (h6 hx).2.2.2
        have := List.countP_eq_zero.mp h0 _ hmem
        simp [isHandled] at this
      · cases hx
    · simp [List.length_set, h8]
  | consDone i hc =>
    have hmem := List.get?_mem hc
    have hH := countP_set s.consumers i _ CPC.idle isHandled hc
    have hC := countP_set s.consumers i _ CPC.idle isCounted hc
    simp [isHandled, isCounted] at hH hC
    refine ⟨?_, ?_, h3, h4, ?_, ?_, h7, ?_⟩
    · simp at h1 ⊢
      omega
    · simp at h2 ⊢
      omega
    · intro hx
      rcases List.mem_or_eq_of_mem_set hx with hx | hx
      · exact h5 hx
      · cases hx
    · intro hx
      rcases List.mem_or_eq_of_mem_set hx with hx | hx
      · obtain ⟨e1, e2, e3, e4⟩ := h6 hx
        refine ⟨e1, e2, e3, ?_⟩
        show List.countP isHandled (s.consumers.set i CPC.idle) = 0
        omega
      · cases hx
    · simp [List.length_set, h8]
  | consErr i hc =>
    have hmem := List.get?_mem hc
    have hH := countP_set s.consumers i _ CPC.idle isHandled hc
    have hC := countP_set s.consumers i _ CPC.idle isCounted hc
    simp [isHandled, isCounted] at hH hC
    refine ⟨?_, ?_, h3, h4, ?_, ?_, by simpa using h7, ?_⟩
    · simp at h1 ⊢
      omega
    · simp at h2 ⊢
      omega
    · intro hx
      rcases List.mem_or_eq_of_mem_set hx with hx | hx
      · exact h5 hx
      · simp at hx
    · intro hx
      rcases List.mem_or_eq_of_mem_set hx with hx | hx
      · obtain ⟨e1, e2, e3, e4⟩ := h6 hx
        refine ⟨e1, e2, e3, ?_⟩
        show List.countP isHandled (s.consumers.set i CPC.idle) = 0
        omega
      · simp at hx
    · simp [List.length_set, h8]
  | consSentinel i q hc hq =>
    have hmem := List.get?_mem hc
    have hH := countP_set s.consumers i _ CPC.sentinelCheck isHandled hc
    have hC := countP_set s.consumers i _ CPC.sentinelCheck isCounted hc
    simp [isHandled, isCounted] at hH hC
    have hpushed : s.sentinelPushed = true := h3 (by rw [hq]; simp)
    have hq2 : List.countP isTaskItem s.queue = List.countP isTaskItem q := by
      rw [hq]
      simp [List.countP_cons, isTaskItem]
    have hqq : queueTasks (q ++ [QItem.sentinel]) = List.countP isTaskItem q := by
      simp [queueTasks, List.countP_append, List.countP_cons, isTaskItem]
    refine ⟨?_, ?_, ?_, h4, fun _ => hpushed, ?_, h7, ?_⟩
    · simp [queueTasks, List.countP_append, List.countP_cons, isTaskItem]
        at h1 ⊢
      omega
    · simp [queueTasks, List.countP_append, List.countP_cons, isTaskItem]
        at h2 ⊢
      omega
    · intro _; exact hpushed
    · intro hx
      rcases List.mem_or_eq_of_mem_set hx with hx | hx
      · obtain ⟨e1, e2, e3, e4⟩ := h6 hx
        simp only [queueTasks] at e3
        refine ⟨e1, e2, ?_, ?_⟩
        · show queueTasks (q ++ [QItem.sentinel]) = 0
          rw [hqq]
          omega
        · show List.countP isHandled (s.consumers.set i CPC.sentinelCheck) = 0
          omega
      · cases hx
    · simp [List.length_set, h8]
  | consExit i hc hp =>
    have hmem := List.get?_mem hc
    have hH := countP_set s.consumers i _ CPC.exited isHandled hc
    have hC := countP_set s.consumers i _ CPC.exited isCounted hc
    simp [isHandled, isCounted] at hH hC
    have hpushed : s.sentinelPushed = true := h5 hmem
    have hzero : midCount s.mid = 0 ∧ queueTasks s.queue = 0 ∧
        s.consumers.countP isHandled = 0 := by
      rw [h2] at hp
      refine ⟨by omega, by omega, by omega⟩
    refine ⟨?_, ?_, h3, h4, ?_, ?_, h7, ?_⟩
    · simp at h1 ⊢
      omega
    · simp at h2 ⊢
      omega
    · intro hx
      rcases List.mem_or_eq_of_mem_set hx with hx | hx
      · exact h5 hx
      · cases hx
    · intro _
      refine ⟨(h4 hpushed).1, (h4 hpushed).2, hzero.2.1, ?_⟩
      show List.countP isHandled (s.consumers.set i CPC.exited) = 0
      omega
    · simp [List.length_set, h8]
  | consLoop i hc hp =>
    have hmem := List.get?_mem hc
    have hH := countP_set s.consumers i _ CPC.idle isHandled hc
    have hC := countP_set s.consumers i _ CPC.idle isCounted hc
    simp [isHandled, isCounted] at hH hC
    refine ⟨?_, ?_, h3, h4, ?_, ?_, h7, ?_⟩
    · simp at h1 ⊢
      omega
    · simp at h2 ⊢
      omega
    · intro hx
      rcases List.mem_or_eq_of_mem_set hx with hx | hx
      · exact h5 hx
      · cases hx
    · intro hx
      rcases List.mem_or_eq_of_mem_set hx with hx | hx
      · obtain ⟨e1, e2, e3, e4⟩ := h6 hx
        refine ⟨e1, e2, e3, ?_⟩
        show List.countP isHandled (s.consumers.set i CPC.idle) = 0
        omega
      · cases hx
    · simp [List.length_set, h8]

theorem winv_rtc {s s' : WState} {N C : Nat}
    (h : Relation.ReflTransGen (WStep true) s s') (hinv : WInv N C s) :
    WInv N C s' := by
  induction h with
  | refl => exact hinv
  | tail _ hbc ih => exact winv_step hbc ih

theorem winv_init (outcomes : List Bool) (numConsumers : Nat) :
    WInv outcomes.length numConsumers (WInit outcomes numConsumers) := by
  have hrep : ∀ p : CPC → Bool, p CPC.idle = false →
      (List.replicate numConsumers CPC.idle).countP p = 0 := by
    intro p hp
    rw [List.countP_eq_zero]
    intro a ha
    rw [List.eq_of_mem_replicate ha, hp]
    simp
  refine ⟨?_, ?_, ?_, ?_, ?_, ?_, rfl, ?_⟩
  · simp [WInit, midCount, queueTasks, hrep isHandled rfl, hrep isCounted rfl]
  · simp [WInit, midCount, queueTasks, hrep isHandled rfl]
  · intro hx; simp [WInit] at hx
  · intro hx; simp [WInit] at hx
  · intro hx
    simp only [WInit] at hx
    have := List.eq_of_mem_replicate hx
    cases this
  · intro hx
    simp only [WInit] at hx
    have := List.eq_of_mem_replicate hx
    cases this
  · simp [WInit]

/-- C7: for every run of the pool over a finite task source in which each
task's handler either succeeds or raises, with a custom error handler that
absorbs exceptions and at least one consumer thread, every interleaving that
reaches the returned-from-`run()` state satisfies
`done + errors = number of tasks`, and no unhandled exception has escaped
`run()` — failing tasks are counted and never terminate sibling consumers. -/
theorem worker_pool_counts :
    ∀ (outcomes : List Bool) (numConsumers : Nat) (s : WState),
      1 ≤ numConsumers →
      Relation.ReflTransGen (WStep true) (WInit outcomes numConsumers) s →
      WFinal s →
      s.done + s.errors = outcomes.length ∧ s.escaped = false := by
  intro outcomes numConsumers s hC htrace hfinal
  have hinv := winv_rtc htrace (winv_init outcomes numConsumers)
  obtain ⟨h1, h2, h3, h4, h5, h6, h7, h8⟩ := hinv
  obtain ⟨hf1, hf2, hf3, hf4⟩ := hfinal
  refine ⟨?_, h7⟩
  obtain ⟨pc, hpc⟩ : ∃ pc, pc ∈ s.consumers := by
    cases hcons : s.consumers with
    | nil => rw [hcons] at h8; simp at h8; omega
    | cons pc tl => exact ⟨pc, by simp [hcons]⟩
  have hex : CPC.exited ∈ s.consumers := (hf4 pc hpc) ▸ hpc
  obtain ⟨-, -, e3, e4⟩ := h6 hex
  have hcnt : s.consumers.countP isCounted = 0 := by
    rw [List.countP_eq_zero]
    intro a ha
    rw [hf4 a ha]
    simp [isCounted]
  rw [hf1, hf2] at h1
  simp only [List.length_nil, midCount] at h1
  omega

/-- C7 (witness): a complete concrete interleaving — one consumer, one
failing task, absorbed by the custom handler — reaching the final state with
`done + errors = 1` and nothing escaped. -/
theorem worker_pool_counts_witness :
    ∃ s : WState,
      Relation.ReflTransGen (WStep true) (WInit [false] 1) s ∧ WFinal s ∧
      s.done + s.errors = 1 ∧ s.escaped = false := by
  have htrace : Relation.ReflTransGen (WStep true) (WInit [false] 1)
      ⟨[], none, true, [.sentinel], 0, 0, 1, [.exited], false⟩ := by
    refine .head (WStep.prodCount _ false [] rfl rfl) ?_
    refine .head (WStep.prodPush _ false rfl) ?_
    refine .head (WStep.prodSentinel _ rfl rfl rfl) ?_
    refine .head (WStep.consPop _ 0 false [QItem.sentinel] rfl rfl) ?_
    refine .head (WStep.consDec _ 0 false rfl) ?_
    refine .head (WStep.consErr _ 0 rfl) ?_
    refine .head (WStep.consSentinel _ 0 [] rfl rfl) ?_
    exact .single (WStep.consExit _ 0 rfl (by decide))
  have hfinal : WFinal ⟨[], none, true, [.sentinel], 0, 0, 1, [.exited], false⟩ :=
    ⟨rfl, rfl, rfl, by decide⟩
  exact ⟨_, htrace, hfinal,
    worker_pool_counts [false] 1 _ (by norm_num) htrace hfinal⟩

end Anystore
